import Mathlib

/-!
Verification of the protected Romulus AEAD implementations (first-order
Boolean masking, ARMv7-M) against their natural-language specification.

The development shallowly embeds the C driver code of the repository:
bytes and 32-bit words are natural numbers (stores into `uint8_t` or
`uint32_t` locations truncate with `% 256` or `% 2 ^ 32` exactly where the
C code truncates), byte buffers are lists of naturals, and the extern
assembly routines (the masked SKINNY-128-384+ cipher and the tweakey
schedule kernels) are parameters of the embedding, constrained only by the
masking-correctness contract stated in the specification.
-/

namespace Romulus

/-! ## Bit-arithmetic toolkit -/

theorem xor_mod_two_pow (x y k : ℕ) :
    (x ^^^ y) % 2 ^ k = x % 2 ^ k ^^^ y % 2 ^ k := by
  apply Nat.eq_of_testBit_eq
  intro i
  by_cases h : i < k <;>
    simp [Nat.testBit_mod_two_pow, Nat.testBit_xor, h]

theorem or_mod_two_pow (x y k : ℕ) :
    (x ||| y) % 2 ^ k = x % 2 ^ k ||| y % 2 ^ k := by
  apply Nat.eq_of_testBit_eq
  intro i
  by_cases h : i < k <;>
    simp [Nat.testBit_mod_two_pow, Nat.testBit_or, h]

theorem and_mod_two_pow (x y k : ℕ) :
    (x &&& y) % 2 ^ k = x % 2 ^ k &&& y % 2 ^ k := by
  apply Nat.eq_of_testBit_eq
  intro i
  by_cases h : i < k <;>
    simp [Nat.testBit_mod_two_pow, Nat.testBit_and, h]

theorem shiftRight_xor (x y k : ℕ) :
    (x ^^^ y) >>> k = x >>> k ^^^ y >>> k := by
  apply Nat.eq_of_testBit_eq
  intro i
  simp [Nat.testBit_shiftRight, Nat.testBit_xor]

theorem shiftLeft_xor (x y k : ℕ) :
    (x ^^^ y) <<< k = x <<< k ^^^ y <<< k := by
  apply Nat.eq_of_testBit_eq
  intro i
  by_cases h : k ≤ i <;>
    simp [Nat.testBit_shiftLeft, Nat.testBit_xor, h]

theorem and_xor_right (x y z : ℕ) :
    (x ^^^ y) &&& z = (x &&& z) ^^^ (y &&& z) :=
  Nat.and_xor_distrib_right

theorem lor_add_of_and_eq_zero :
    ∀ x y : ℕ, x &&& y = 0 → x ||| y = x + y := by
  intro x
  induction x using Nat.strong_induction_on with
  | _ x ih =>
    intro y h
    rcases Nat.eq_zero_or_pos x with hx | hx
    · subst hx; simp
    · have hxd : x / 2 < x := Nat.div_lt_self hx (by omega)
      have hd : x / 2 &&& y / 2 = 0 := by
        rw [← Nat.and_div_two, h]
      have ihd := ih (x / 2) hxd (y / 2) hd
      have hm2 : x % 2 &&& y % 2 = 0 := by
        have := and_mod_two_pow x y 1
        rw [h] at this
        simpa using this.symm
      have hom : (x ||| y) % 2 = x % 2 ||| y % 2 := by
        simpa using or_mod_two_pow x y 1
      have hod : (x ||| y) / 2 = x / 2 ||| y / 2 := Nat.or_div_two
      have hsplit : x ||| y = 2 * ((x ||| y) / 2) + (x ||| y) % 2 :=
        (Nat.div_add_mod _ 2).symm
      have hx2 : x % 2 = 0 ∨ x % 2 = 1 := Nat.mod_two_eq_zero_or_one x
      have hy2 : y % 2 = 0 ∨ y % 2 = 1 := Nat.mod_two_eq_zero_or_one y
      have hbit : x % 2 ||| y % 2 = x % 2 + y % 2 := by
        rcases hx2 with h1 | h1 <;> rcases hy2 with h2 | h2 <;>
          rw [h1, h2] <;> first | rfl | (rw [h1, h2] at hm2; simp at hm2)
      have hxs : x = 2 * (x / 2) + x % 2 := (Nat.div_add_mod _ 2).symm
      have hys : y = 2 * (y / 2) + y % 2 := (Nat.div_add_mod _ 2).symm
      omega

theorem and_eq_zero_of_lt_shift {x y k : ℕ} (hx : x < 2 ^ k) :
    x &&& y <<< k = 0 := by
  apply Nat.eq_of_testBit_eq
  intro i
  by_cases h : k ≤ i
  · have : x.testBit i = false := by
      apply Nat.testBit_lt_two_pow
      exact lt_of_lt_of_le hx (Nat.pow_le_pow_right (by omega) h)
    simp [Nat.testBit_and, this]
  · simp [Nat.testBit_and, Nat.testBit_shiftLeft, h]

theorem lor_shift_eq_add {x y k : ℕ} (hx : x < 2 ^ k) :
    x ||| y <<< k = x + y * 2 ^ k := by
  rw [lor_add_of_and_eq_zero _ _ (and_eq_zero_of_lt_shift hx), Nat.shiftLeft_eq]

theorem xor_lt_two_pow_t {x y k : ℕ} (hx : x < 2 ^ k) (hy : y < 2 ^ k) :
    x ^^^ y < 2 ^ k :=
  Nat.xor_lt_two_pow hx hy

theorem eq_256_pow : (256 : ℕ) = 2 ^ 8 := by norm_num

theorem xor_left_comm (a b c : ℕ) : a ^^^ (b ^^^ c) = b ^^^ (a ^^^ c) := by
  rw [← Nat.xor_assoc, Nat.xor_comm a b, Nat.xor_assoc]

theorem xor_lt_256 {x y : ℕ} (hx : x < 256) (hy : y < 256) :
    x ^^^ y < 256 := by
  rw [eq_256_pow] at hx hy ⊢
  exact Nat.xor_lt_two_pow hx hy

theorem lor_eq_xor_of_and_eq_zero {x y : ℕ} (h : x &&& y = 0) :
    x ||| y = x ^^^ y := by
  apply Nat.eq_of_testBit_eq
  intro i
  have hb : (x &&& y).testBit i = false := by rw [h]; simp
  rw [Nat.testBit_and] at hb
  rcases Bool.and_eq_false_iff.mp hb with h1 | h1 <;>
    simp [Nat.testBit_or, Nat.testBit_xor, h1]

/-! ## Byte buffers and 32-bit word views -/

/-- All entries of a byte buffer fit in one byte. -/
def IsBytes (l : List ℕ) : Prop := ∀ b ∈ l, b < 256

instance (l : List ℕ) : Decidable (IsBytes l) := by
  unfold IsBytes; infer_instance

/-- Pack four bytes into a 32-bit word, little endian, mirroring the
word assembly `x[0] | x[1] << 8 | x[2] << 16 | x[3] << 24` used throughout
the share-conversion code. -/
def wordOfBytes (b0 b1 b2 b3 : ℕ) : ℕ :=
  b0 ||| b1 <<< 8 ||| b2 <<< 16 ||| b3 <<< 24

/-- View of a byte array as a 32-bit word array (the C `(uint32_t *)` cast
on a little-endian target). -/
def bytesToWords : List ℕ → List ℕ
  | b0 :: b1 :: b2 :: b3 :: rest => wordOfBytes b0 b1 b2 b3 :: bytesToWords rest
  | _ => []

/-- The four bytes of a 32-bit word, mirroring `(w >> 8*i) & 0xff`. -/
def bytesOfWord (w : ℕ) : List ℕ :=
  [w &&& 0xff, (w >>> 8) &&& 0xff, (w >>> 16) &&& 0xff, (w >>> 24) &&& 0xff]

/-- View of a word array as a byte array. -/
def wordsToBytes : List ℕ → List ℕ
  | [] => []
  | w :: rest => bytesOfWord w ++ wordsToBytes rest

/-- Byte-wise (equivalently word-wise) XOR of two buffers. -/
def xorBytes (a b : List ℕ) : List ℕ := List.zipWith (fun x y => x ^^^ y) a b

theorem wordOfBytes_eq_add {b0 b1 b2 b3 : ℕ} (h0 : b0 < 256) (h1 : b1 < 256)
    (h2 : b2 < 256) (_h3 : b3 < 256) :
    wordOfBytes b0 b1 b2 b3 = b0 + b1 * 2 ^ 8 + b2 * 2 ^ 16 + b3 * 2 ^ 24 := by
  unfold wordOfBytes
  have e0 : b0 ||| b1 <<< 8 = b0 + b1 * 2 ^ 8 :=
    lor_shift_eq_add (by norm_num at h0 ⊢; omega)
  rw [e0]
  have e1 : b0 + b1 * 2 ^ 8 ||| b2 <<< 16 = b0 + b1 * 2 ^ 8 + b2 * 2 ^ 16 :=
    lor_shift_eq_add (by norm_num; omega)
  rw [e1]
  exact lor_shift_eq_add (by norm_num; omega)

theorem wordOfBytes_lt {b0 b1 b2 b3 : ℕ} (h0 : b0 < 256) (h1 : b1 < 256)
    (h2 : b2 < 256) (h3 : b3 < 256) :
    wordOfBytes b0 b1 b2 b3 < 2 ^ 32 := by
  rw [wordOfBytes_eq_add h0 h1 h2 h3]; norm_num; omega

theorem bytesOfWord_wordOfBytes {b0 b1 b2 b3 : ℕ} (h0 : b0 < 256)
    (h1 : b1 < 256) (h2 : b2 < 256) (h3 : b3 < 256) :
    bytesOfWord (wordOfBytes b0 b1 b2 b3) = [b0, b1, b2, b3] := by
  have hmask : ∀ x : ℕ, x &&& 0xff = x % 2 ^ 8 := by
    intro x
    have := Nat.and_pow_two_sub_one_eq_mod x 8
    norm_num at this ⊢
    exact this
  rw [wordOfBytes_eq_add h0 h1 h2 h3]
  unfold bytesOfWord
  rw [hmask, hmask, hmask, hmask,
    Nat.shiftRight_eq_div_pow, Nat.shiftRight_eq_div_pow,
    Nat.shiftRight_eq_div_pow]
  norm_num
  omega

theorem wordsToBytes_bytesToWords {bs : List ℕ} (hb : IsBytes bs)
    (hlen : bs.length % 4 = 0) : wordsToBytes (bytesToWords bs) = bs := by
  induction bs using bytesToWords.induct with
  | case1 b0 b1 b2 b3 rest ih =>
    have h0 : b0 < 256 := hb _ (by simp)
    have h1 : b1 < 256 := hb _ (by simp)
    have h2 : b2 < 256 := hb _ (by simp)
    have h3 : b3 < 256 := hb _ (by simp)
    have hbr : IsBytes rest := fun b hbm => hb b (by simp [hbm])
    have hlr : rest.length % 4 = 0 := by
      simp only [List.length_cons] at hlen; omega
    rw [bytesToWords, wordsToBytes, bytesOfWord_wordOfBytes h0 h1 h2 h3,
      ih hbr hlr]
    rfl
  | case2 l h =>
    rcases l with _ | ⟨a, _ | ⟨b, _ | ⟨c, _ | ⟨d, rest⟩⟩⟩⟩
    · rfl
    · simp at hlen
    · simp at hlen
    · simp only [List.length_cons, List.length_nil] at hlen; omega
    · exact absurd rfl (h a b c d rest)

theorem bytesOfWord_lt (w : ℕ) : IsBytes (bytesOfWord w) := by
  intro b hbm
  have hmask : ∀ x : ℕ, x &&& 0xff < 256 := by
    intro x
    have := Nat.and_pow_two_sub_one_eq_mod x 8
    norm_num at this
    rw [this]
    omega
  simp [bytesOfWord] at hbm
  rcases hbm with h | h | h | h <;> rw [h] <;> exact hmask _

theorem wordsToBytes_isBytes (ws : List ℕ) : IsBytes (wordsToBytes ws) := by
  induction ws with
  | nil => intro b hbm; simp [wordsToBytes] at hbm
  | cons w rest ih =>
    intro b hbm
    rw [wordsToBytes] at hbm
    rcases List.mem_append.mp hbm with h | h
    · exact bytesOfWord_lt w b h
    · exact ih b h

theorem wordsToBytes_length (ws : List ℕ) :
    (wordsToBytes ws).length = 4 * ws.length := by
  induction ws with
  | nil => rfl
  | cons w rest ih => simp [wordsToBytes, bytesOfWord, ih]; omega

theorem bytesToWords_length (bs : List ℕ) :
    (bytesToWords bs).length = bs.length / 4 := by
  induction bs using bytesToWords.induct with
  | case1 b0 b1 b2 b3 rest ih =>
    rw [bytesToWords]
    simp [List.length_cons, ih]
    omega
  | case2 l h =>
    rcases l with _ | ⟨a, _ | ⟨b, _ | ⟨c, _ | ⟨d, rest⟩⟩⟩⟩
    · simp [bytesToWords]
    · simp [bytesToWords]
    · simp [bytesToWords]
    · simp [bytesToWords]
    · exact absurd rfl (h a b c d rest)

theorem wordOfBytes_xor {a0 a1 a2 a3 b0 b1 b2 b3 : ℕ} (ha0 : a0 < 256)
    (ha1 : a1 < 256) (ha2 : a2 < 256) (ha3 : a3 < 256) (hb0 : b0 < 256)
    (hb1 : b1 < 256) (hb2 : b2 < 256) (hb3 : b3 < 256) :
    wordOfBytes (a0 ^^^ b0) (a1 ^^^ b1) (a2 ^^^ b2) (a3 ^^^ b3) =
      wordOfBytes a0 a1 a2 a3 ^^^ wordOfBytes b0 b1 b2 b3 := by
  have hxf : ∀ x0 x1 x2 x3 : ℕ, x0 < 256 → x1 < 256 → x2 < 256 → x3 < 256 →
      wordOfBytes x0 x1 x2 x3 = x0 ^^^ x1 <<< 8 ^^^ x2 <<< 16 ^^^ x3 <<< 24 := by
    intro x0 x1 x2 x3 h0 h1 h2 h3
    unfold wordOfBytes
    have d0 : x0 &&& x1 <<< 8 = 0 :=
      and_eq_zero_of_lt_shift (by norm_num at h0 ⊢; omega)
    rw [lor_eq_xor_of_and_eq_zero d0]
    have l01 : x0 ^^^ x1 <<< 8 < 2 ^ 16 := by
      apply Nat.xor_lt_two_pow
      · norm_num; omega
      · rw [Nat.shiftLeft_eq]; norm_num; omega
    rw [lor_eq_xor_of_and_eq_zero (and_eq_zero_of_lt_shift l01)]
    have l012 : x0 ^^^ x1 <<< 8 ^^^ x2 <<< 16 < 2 ^ 24 := by
      apply Nat.xor_lt_two_pow
      · exact lt_of_lt_of_le l01 (by norm_num)
      · rw [Nat.shiftLeft_eq]; norm_num; omega
    rw [lor_eq_xor_of_and_eq_zero (and_eq_zero_of_lt_shift l012)]
  rw [hxf _ _ _ _ (xor_lt_256 ha0 hb0) (xor_lt_256 ha1 hb1)
      (xor_lt_256 ha2 hb2) (xor_lt_256 ha3 hb3),
    hxf _ _ _ _ ha0 ha1 ha2 ha3, hxf _ _ _ _ hb0 hb1 hb2 hb3,
    shiftLeft_xor, shiftLeft_xor, shiftLeft_xor]
  have hc : ∀ p q r s t u v w : ℕ,
      (p ^^^ q) ^^^ (r ^^^ s) ^^^ (t ^^^ u) ^^^ (v ^^^ w) =
        (p ^^^ r ^^^ t ^^^ v) ^^^ (q ^^^ s ^^^ u ^^^ w) := by
    intro p q r s t u v w
    simp only [Nat.xor_assoc]
    simp [Nat.xor_comm, xor_left_comm]
  exact hc _ _ _ _ _ _ _ _

theorem bytesOfWord_xor (w v : ℕ) :
    bytesOfWord (w ^^^ v) = xorBytes (bytesOfWord w) (bytesOfWord v) := by
  simp [bytesOfWord, xorBytes, shiftRight_xor, and_xor_right]

theorem xorBytes_length (a b : List ℕ) :
    (xorBytes a b).length = min a.length b.length := by
  simp [xorBytes]

theorem xorBytes_isBytes {a b : List ℕ} (ha : IsBytes a) (hb : IsBytes b) :
    IsBytes (xorBytes a b) := by
  intro x hx
  rw [xorBytes, List.mem_iff_getElem] at hx
  obtain ⟨i, hi, hval⟩ := hx
  rw [List.getElem_zipWith] at hval
  subst hval
  simp [xorBytes] at hi
  exact xor_lt_256 (ha _ (List.getElem_mem _)) (hb _ (List.getElem_mem _))

theorem xorBytes_comm (a b : List ℕ) : xorBytes a b = xorBytes b a := by
  induction a generalizing b with
  | nil => cases b <;> rfl
  | cons x xs ih =>
    cases b with
    | nil => rfl
    | cons y ys => simp [xorBytes, Nat.xor_comm] at ih ⊢; exact ih ys

theorem xorBytes_assoc (a b c : List ℕ) :
    xorBytes (xorBytes a b) c = xorBytes a (xorBytes b c) := by
  induction a generalizing b c with
  | nil => cases b <;> cases c <;> rfl
  | cons x xs ih =>
    cases b with
    | nil => rfl
    | cons y ys =>
      cases c with
      | nil => rfl
      | cons z zs =>
        simp [xorBytes, Nat.xor_assoc] at ih ⊢
        exact ih ys zs

theorem xorBytes_cancel_right {a b : List ℕ} (h : a.length = b.length) :
    xorBytes (xorBytes a b) b = a := by
  induction a generalizing b with
  | nil => cases b <;> rfl
  | cons x xs ih =>
    cases b with
    | nil => simp at h
    | cons y ys =>
      simp only [List.length_cons] at h
      simp [xorBytes] at ih ⊢
      exact ⟨Nat.xor_cancel_right _ _, ih (by omega)⟩

theorem xorBytes_zero_right {a : List ℕ} {n : ℕ} (h : a.length ≤ n) :
    xorBytes a (List.replicate n 0) = a := by
  induction a generalizing n with
  | nil => cases n <;> rfl
  | cons x xs ih =>
    cases n with
    | zero => simp at h
    | succ m =>
      simp only [List.length_cons] at h
      simp [xorBytes, List.replicate_succ] at ih ⊢
      exact ih (by omega)

theorem xorBytes_zero_left {a : List ℕ} {n : ℕ} (h : a.length ≤ n) :
    xorBytes (List.replicate n 0) a = a := by
  rw [xorBytes_comm]; exact xorBytes_zero_right h

theorem bytesToWords_xor {a b : List ℕ} (ha : IsBytes a) (hb : IsBytes b)
    (hlen : a.length = b.length) :
    bytesToWords (xorBytes a b) =
      List.zipWith (fun x y => x ^^^ y) (bytesToWords a) (bytesToWords b) := by
  induction a using bytesToWords.induct generalizing b with
  | case1 a0 a1 a2 a3 rest ih =>
    rcases b with _ | ⟨b0, _ | ⟨b1, _ | ⟨b2, _ | ⟨b3, brest⟩⟩⟩⟩ <;>
      simp only [List.length_cons, List.length_nil] at hlen
    · omega
    · omega
    · omega
    · omega
    · have hra : IsBytes rest := fun x hx => ha x (by simp [hx])
      have hrb : IsBytes brest := fun x hx => hb x (by simp [hx])
      show bytesToWords
          ((a0 ^^^ b0) :: (a1 ^^^ b1) :: (a2 ^^^ b2) :: (a3 ^^^ b3) ::
            xorBytes rest brest) = _
      rw [bytesToWords, bytesToWords, bytesToWords]
      simp only [List.zipWith_cons_cons]
      rw [ih hra hrb (by omega),
        wordOfBytes_xor (ha _ (by simp)) (ha _ (by simp)) (ha _ (by simp))
          (ha _ (by simp)) (hb _ (by simp)) (hb _ (by simp)) (hb _ (by simp))
          (hb _ (by simp))]
  | case2 l h =>
    rcases l with _ | ⟨a0, _ | ⟨a1, _ | ⟨a2, _ | ⟨a3, rest⟩⟩⟩⟩
    · cases b <;> rfl
    · rcases b with _ | ⟨b0, bs⟩
      · rfl
      · rcases bs with _ | ⟨b1, bs⟩ <;> simp only [List.length_cons] at hlen <;>
          simp [xorBytes, bytesToWords]
    · rcases b with _ | ⟨b0, _ | ⟨b1, bs⟩⟩
      · rfl
      · simp only [List.length_cons, List.length_nil] at hlen; omega
      · rcases bs with _ | ⟨b2, bs⟩ <;> simp only [List.length_cons] at hlen <;>
          simp [xorBytes, bytesToWords]
    · rcases b with _ | ⟨b0, _ | ⟨b1, _ | ⟨b2, bs⟩⟩⟩
      · rfl
      · simp only [List.length_cons, List.length_nil] at hlen; omega
      · simp only [List.length_cons, List.length_nil] at hlen; omega
      · rcases bs with _ | ⟨b3, bs⟩ <;> simp only [List.length_cons] at hlen <;>
          simp [xorBytes, bytesToWords]
    · exact absurd rfl (h a0 a1 a2 a3 rest)

theorem wordsToBytes_zipXor (ws vs : List ℕ) :
    wordsToBytes (List.zipWith (fun x y => x ^^^ y) ws vs) =
      xorBytes (wordsToBytes ws) (wordsToBytes vs) := by
  induction ws generalizing vs with
  | nil => cases vs <;> rfl
  | cons w wrest ih =>
    cases vs with
    | nil => simp [wordsToBytes, xorBytes]
    | cons v vrest =>
      simp only [List.zipWith_cons_cons]
      rw [wordsToBytes, wordsToBytes, wordsToBytes, ih]
      rw [bytesOfWord_xor]
      show _ = xorBytes (bytesOfWord w ++ wordsToBytes wrest)
        (bytesOfWord v ++ wordsToBytes vrest)
      unfold xorBytes
      rw [List.zipWith_append _ _ _ _ _ (by simp [bytesOfWord])]

/-! ## The Romulus block macros (romulus_n.h / romulus_m.h) -/

/-- A 16-byte block buffer. -/
def Block16 (l : List ℕ) : Prop := l.length = 16 ∧ IsBytes l

instance (l : List ℕ) : Decidable (Block16 l) := by
  unfold Block16; infer_instance

/-- One word of the linear transform G, exactly as the word-wise macro
computes it: `(tmp >> 1 & 0x7f7f7f7f) ^ ((tmp ^ (tmp << 7)) & 0x80808080)`
with the shift truncated to 32 bits. -/
def gword (t : ℕ) : ℕ :=
  ((t >>> 1) &&& 0x7f7f7f7f) ^^^ ((t ^^^ (t <<< 7) % 2 ^ 32) &&& 0x80808080)

/-- The macro `G(x, y)`: apply `gword` to the four 32-bit words of the
16-byte block `y`. -/
def gBlock (y : List ℕ) : List ℕ :=
  wordsToBytes ((bytesToWords y).map gword)

/-- The macro `XOR_BLOCK(x, y, z)`: word-wise XOR through the
`(uint32_t *)` casts. -/
def xorBlock (y z : List ℕ) : List ℕ :=
  wordsToBytes (List.zipWith (fun a b => a ^^^ b) (bytesToWords y) (bytesToWords z))

/-- The macro `RHO(x, x_m, y, z, tmp)`; result `(x, x_m, y)` is the memory
contents after the macro: `y = G(x_m) ^ (G(x) ^ z)` and `x = x ^ z`, the
mask share `x_m` being only read. -/
def RHO (x xm z : List ℕ) : List ℕ × List ℕ × List ℕ :=
  let y1 := xorBlock (gBlock x) z
  let y2 := xorBlock (gBlock xm) y1
  (xorBlock x z, xm, y2)

/-- The macro `RHO_INV(x, x_m, y, z, tmp)`; result `(x, x_m, z)` with
`z = G(x_m) ^ (G(x) ^ y)` and `x = x ^ z`. -/
def RHO_INV (x xm y : List ℕ) : List ℕ × List ℕ × List ℕ :=
  let z1 := xorBlock (gBlock x) y
  let z2 := xorBlock (gBlock xm) z1
  (xorBlock x z2, xm, z2)

/-- The macro `SET_DOMAIN(tk1, domain)`: `tk1[7] = domain`. -/
def SET_DOMAIN (tk1 : List ℕ) (d : ℕ) : List ℕ := tk1.set 7 d

/-- The macro `UPDATE_CTR(tk1)`: one step of the 56-bit LFSR on the first
seven bytes of `tk1`, word-wise as in the C code. -/
def UPDATE_CTR (tk1 : List ℕ) : List ℕ :=
  match bytesToWords tk1 with
  | w0 :: w1 :: rest =>
      let w1a := ((w1 <<< 1) &&& 0x00ffffff) ||| (w0 >>> 31) ||| (w1 &&& 0xff000000)
      let w0a := (w0 <<< 1) % 2 ^ 32
      let w0b := if (w1 >>> 23) &&& 1 = 1 then w0a ^^^ 0x95 else w0a
      wordsToBytes (w0b :: w1a :: rest)
  | ws => wordsToBytes ws

/-- One byte of the final-block keystream, mirroring the two stores
`out[i] = in[i] ^ (state[i] >> 1) ^ (state[i] & 0x80) ^ (state[i] << 7)`
then `out[i] ^= (state_m[i] >> 1) ^ (state_m[i] & 0x80) ^ (state_m[i] << 7)`
with `uint8_t` truncation at each store. -/
def lastBlockByte (s sm c : ℕ) : ℕ :=
  ((c ^^^ (s >>> 1) ^^^ (s &&& 0x80) ^^^ s <<< 7) % 256 ^^^
    ((sm >>> 1) ^^^ (sm &&& 0x80) ^^^ sm <<< 7)) % 256

/-- XOR a value into one byte of a buffer (`buf[i] ^= v`, `uint8_t` store). -/
def xorAt (l : List ℕ) (i v : ℕ) : List ℕ :=
  l.set i ((l.getD i 0 ^^^ v) % 256)

theorem xor_mix (p q r s : ℕ) :
    (p ^^^ q) ^^^ (r ^^^ s) = (p ^^^ r) ^^^ (q ^^^ s) := by
  simp only [Nat.xor_assoc]
  simp [Nat.xor_comm, xor_left_comm]

theorem gword_xor (x y : ℕ) : gword (x ^^^ y) = gword x ^^^ gword y := by
  unfold gword
  rw [shiftRight_xor, and_xor_right, shiftLeft_xor, xor_mod_two_pow]
  rw [show x ^^^ y ^^^ (x <<< 7 % 2 ^ 32 ^^^ y <<< 7 % 2 ^ 32) =
      (x ^^^ x <<< 7 % 2 ^ 32) ^^^ (y ^^^ y <<< 7 % 2 ^ 32) from
    xor_mix x y _ _]
  rw [and_xor_right]
  exact xor_mix _ _ _ _

theorem map_gword_zipXor (wa wb : List ℕ) :
    (List.zipWith (fun a b => a ^^^ b) wa wb).map gword =
      List.zipWith (fun a b => a ^^^ b) (wa.map gword) (wb.map gword) := by
  induction wa generalizing wb with
  | nil => cases wb <;> rfl
  | cons w ws ih =>
    cases wb with
    | nil => rfl
    | cons v vs => simp [gword_xor, ih]

theorem xorBlock_eq {y z : List ℕ} (hy : IsBytes y) (hz : IsBytes z)
    (hlen : y.length = z.length) (h4 : y.length % 4 = 0) :
    xorBlock y z = xorBytes y z := by
  unfold xorBlock
  rw [← bytesToWords_xor hy hz hlen]
  exact wordsToBytes_bytesToWords (xorBytes_isBytes hy hz)
    (by rw [xorBytes_length]; omega)

theorem gBlock_isBytes (y : List ℕ) : IsBytes (gBlock y) :=
  wordsToBytes_isBytes _

theorem gBlock_length (y : List ℕ) :
    (gBlock y).length = 4 * (y.length / 4) := by
  unfold gBlock
  rw [wordsToBytes_length, List.length_map, bytesToWords_length]

theorem gBlock_xor {a b : List ℕ} (ha : IsBytes a) (hb : IsBytes b)
    (hlen : a.length = b.length) :
    gBlock (xorBytes a b) = xorBytes (gBlock a) (gBlock b) := by
  unfold gBlock
  rw [bytesToWords_xor ha hb hlen, map_gword_zipXor, wordsToBytes_zipXor]

/-! ## The extern cipher and tweakey-schedule kernels

The masked SKINNY-128-384+ round function and the fixsliced tweakey
schedule kernels (`skinny128_384_plus`, `tks_perm_1`, `tks_lfsr_23`,
`tks_perm_23`, `tks_lfsr_3`, `tks_perm_23_norc`) are extern assembly
routines that are not part of the C sources; the embedding is
parameterized by them. -/

structure SkinnyImpl where
  skinny : List ℕ → List ℕ → List ℕ → List ℕ → List ℕ → List ℕ × List ℕ
  tksPerm1 : List ℕ → List ℕ
  lfsrPerm23 : List ℕ → List ℕ → List ℕ
  lfsrPerm3m : List ℕ → List ℕ

/-- `tk_schedule_1` from skinny128.h: `tks_perm_1(rtk_1, tk_1)`. -/
def tk_schedule_1 (I : SkinnyImpl) (tk1 : List ℕ) : List ℕ :=
  I.tksPerm1 tk1

/-- `tk_schedule_23` from skinny128.h: the LFSR and permutation passes on
(tk2, tk3) and on the tk3 mask; the result is `(rtk_23, rtk_3m)`. -/
def tk_schedule_23 (I : SkinnyImpl) (tk2 tk3 tk3m : List ℕ) :
    List ℕ × List ℕ :=
  (I.lfsrPerm23 tk2 tk3, I.lfsrPerm3m tk3m)

/-- `tk_schedule_123` from skinny128.h; the result is
`(rtk_23, rtk_3m, rtk_1)`. -/
def tk_schedule_123 (I : SkinnyImpl) (tk1 tk2 tk3 tk3m : List ℕ) :
    List ℕ × List ℕ × List ℕ :=
  (I.lfsrPerm23 tk2 tk3, I.lfsrPerm3m tk3m, I.tksPerm1 tk1)

/-- Modelled from the spec: the masking-correctness contract of the absent
masked cipher kernel (spec 4.1 and the invariants of spec 3): for round
tweakeys derived from a tweak `tk2` and key shares `k, km`, the XOR of the
two output shares of `skinny128_384_plus` equals the unmasked cipher
applied to the XOR of the two input shares, and depends on the key only
through `k XOR km`. -/
def MaskCorrect (I : SkinnyImpl)
    (cipher : List ℕ → List ℕ → List ℕ → List ℕ → List ℕ) : Prop :=
  ∀ a b tk1 tk2 k km,
    xorBytes (I.skinny a b (I.lfsrPerm23 tk2 k) (I.lfsrPerm3m km) (I.tksPerm1 tk1)).1
        (I.skinny a b (I.lfsrPerm23 tk2 k) (I.lfsrPerm3m km) (I.tksPerm1 tk1)).2 =
      cipher (xorBytes a b) tk1 tk2 (xorBytes k km)

/-- Modelled from the spec: the absent cipher kernel writes two well-formed
16-byte output shares. -/
def SkinnyWF (I : SkinnyImpl) : Prop :=
  ∀ a b r rm r1, Block16 (I.skinny a b r rm r1).1 ∧
    Block16 (I.skinny a b r rm r1).2

/-! ## Romulus-M core functions (romulus_m.c) -/

/-- State threaded through the AD / message absorption loops; `rest` is the
not-yet-consumed part of the input stream. -/
structure MState where
  st : List ℕ
  stm : List ℕ
  tk1 : List ℕ
  rest : List ℕ

/-- Result of `romulusm_process_ad`: final state shares, tk1, and the
round-tweakey tables left in `rtk` / `rtk_m` for message processing. -/
structure AdOut where
  st : List ℕ
  stm : List ℕ
  tk1 : List ℕ
  rtk : List ℕ
  rtkm : List ℕ

/-- Result of `romulusm_process_msg`. -/
structure MsgOut where
  out : List ℕ
  st : List ℕ
  stm : List ℕ
  tk1 : List ℕ

/-- `romulusm_init` (and `romulusn_init`): TK1 is set to 0x0100...00 and
both state shares are zeroized. -/
def romulusm_init : List ℕ × List ℕ × List ℕ :=
  (List.replicate 16 0, List.replicate 16 0, 1 :: List.replicate 15 0)

/-- `final_ad_domain` from romulus_m.c, verbatim. -/
def final_ad_domain (adlen mlen : ℕ) : ℕ :=
  let domain0 : ℕ := 0
  let domain1 :=
    if adlen = 0 then domain0 ^^^ 0x02
    else
      let leftover := adlen % (2 * 16)
      if leftover = 0 then domain0 ^^^ 0x08
      else if leftover < 16 then domain0 ^^^ 0x02
      else if leftover > 16 then domain0 ^^^ 0x0A
      else domain0
  if mlen = 0 then domain1 ^^^ 0x01
  else
    let leftover := mlen % (2 * 16)
    if leftover = 0 then domain1 ^^^ 0x04
    else if leftover < 16 then domain1 ^^^ 0x01
    else if leftover > 16 then domain1 ^^^ 0x05
    else domain1

/-- The `while (adlen > 2*BLOCKBYTES)` loop of `romulusm_process_ad`. -/
def romulusm_ad_loop (I : SkinnyImpl) (k km : List ℕ) :
    List ℕ → List ℕ → List ℕ → List ℕ → MState
  | a0 :: a1 :: a2 :: a3 :: a4 :: a5 :: a6 :: a7 :: a8 :: a9 :: a10 :: a11 ::
      a12 :: a13 :: a14 :: a15 :: a16 :: a17 :: a18 :: a19 :: a20 :: a21 ::
      a22 :: a23 :: a24 :: a25 :: a26 :: a27 :: a28 :: a29 :: a30 :: a31 ::
      x :: rest, st, stm, tk1 =>
    let tk1a := UPDATE_CTR tk1
    let st1 := xorBlock st
      [a0, a1, a2, a3, a4, a5, a6, a7, a8, a9, a10, a11, a12, a13, a14, a15]
    let sc := tk_schedule_123 I tk1a
      [a16, a17, a18, a19, a20, a21, a22, a23, a24, a25, a26, a27, a28, a29,
        a30, a31] k km
    let p := I.skinny st1 stm sc.1 sc.2.1 sc.2.2
    romulusm_ad_loop I k km (x :: rest) p.1 p.2 (UPDATE_CTR tk1a)
  | adrest, st, stm, tk1 => ⟨st, stm, tk1, adrest⟩

/-- The left-over AD handling of `romulusm_process_ad` (at most one double
block remains); also absorbs the leading message block when the AD stream
ends in an odd position.  `rest` of the result is the not-yet-consumed
message. -/
def romulusm_ad_last (I : SkinnyImpl) (k km : List ℕ) (adLeft m : List ℕ)
    (st stm tk1 : List ℕ) : MState :=
  if adLeft.length = 32 then
    let tk1a := UPDATE_CTR tk1
    let st1 := xorBlock st (adLeft.take 16)
    let sc := tk_schedule_123 I tk1a (adLeft.drop 16) k km
    let p := I.skinny st1 stm sc.1 sc.2.1 sc.2.2
    ⟨p.1, p.2, UPDATE_CTR tk1a, m⟩
  else if adLeft.length > 16 then
    let adl := adLeft.length - 16
    let tk1a := UPDATE_CTR tk1
    let st1 := xorBlock st (adLeft.take 16)
    let pad := adLeft.drop 16 ++ List.replicate (15 - adl) 0 ++ [adl]
    let sc := tk_schedule_123 I tk1a pad k km
    let p := I.skinny st1 stm sc.1 sc.2.1 sc.2.2
    ⟨p.1, p.2, UPDATE_CTR tk1a, m⟩
  else
    let tk1a := UPDATE_CTR (SET_DOMAIN tk1 0x2C)
    let st1 :=
      if adLeft.length = 16 then xorBlock st adLeft
      else
        xorAt (xorBytes (st.take adLeft.length) adLeft ++ st.drop adLeft.length)
          15 (adLeft.length % 256)
    if 16 ≤ m.length then
      let sc := tk_schedule_123 I tk1a (m.take 16) k km
      let p := I.skinny st1 stm sc.1 sc.2.1 sc.2.2
      let tk1b := if 16 < m.length then UPDATE_CTR tk1a else tk1a
      ⟨p.1, p.2, tk1b, m.drop 16⟩
    else
      let pad := m ++ List.replicate (16 - m.length - 1) 0 ++ [m.length]
      let sc := tk_schedule_123 I tk1a pad k km
      let p := I.skinny st1 stm sc.1 sc.2.1 sc.2.2
      ⟨p.1, p.2, tk1a, []⟩

/-- The `while (mlen > 32)` message-absorption loop of
`romulusm_process_ad`. -/
def romulusm_m_loop (I : SkinnyImpl) (k km : List ℕ) :
    List ℕ → List ℕ → List ℕ → List ℕ → MState
  | a0 :: a1 :: a2 :: a3 :: a4 :: a5 :: a6 :: a7 :: a8 :: a9 :: a10 :: a11 ::
      a12 :: a13 :: a14 :: a15 :: a16 :: a17 :: a18 :: a19 :: a20 :: a21 ::
      a22 :: a23 :: a24 :: a25 :: a26 :: a27 :: a28 :: a29 :: a30 :: a31 ::
      x :: rest, st, stm, tk1 =>
    let tk1a := UPDATE_CTR tk1
    let st1 := xorBlock st
      [a0, a1, a2, a3, a4, a5, a6, a7, a8, a9, a10, a11, a12, a13, a14, a15]
    let sc := tk_schedule_123 I tk1a
      [a16, a17, a18, a19, a20, a21, a22, a23, a24, a25, a26, a27, a28, a29,
        a30, a31] k km
    let p := I.skinny st1 stm sc.1 sc.2.1 sc.2.2
    romulusm_m_loop I k km (x :: rest) p.1 p.2 (UPDATE_CTR tk1a)
  | mrest, st, stm, tk1 => ⟨st, stm, tk1, mrest⟩

/-- The last message double block of `romulusm_process_ad` (at most one
double block remains). -/
def romulusm_m_last (I : SkinnyImpl) (k km : List ℕ) (mLeft : List ℕ)
    (st stm tk1 : List ℕ) : List ℕ × List ℕ × List ℕ :=
  if mLeft.length = 32 then
    let tk1a := UPDATE_CTR tk1
    let st1 := xorBlock st (mLeft.take 16)
    let sc := tk_schedule_123 I tk1a (mLeft.drop 16) k km
    let p := I.skinny st1 stm sc.1 sc.2.1 sc.2.2
    (p.1, p.2, tk1a)
  else if mLeft.length > 16 then
    let ml := mLeft.length - 16
    let tk1a := UPDATE_CTR tk1
    let st1 := xorBlock st (mLeft.take 16)
    let pad := mLeft.drop 16 ++ List.replicate (16 - ml - 1) 0 ++ [ml]
    let sc := tk_schedule_123 I tk1a pad k km
    let p := I.skinny st1 stm sc.1 sc.2.1 sc.2.2
    (p.1, p.2, tk1a)
  else if mLeft.length = 16 then
    (xorBlock st mLeft, stm, tk1)
  else if 0 < mLeft.length then
    (xorAt (xorBytes (st.take mLeft.length) mLeft ++ st.drop mLeft.length)
      15 (mLeft.length % 256), stm, tk1)
  else (st, stm, tk1)

/-- `romulusm_process_ad` from romulus_m.c: absorb the whole AD stream and
the message stream, with the final domain folded into TK1 before the last
cipher call (whose tweak is the nonce).  Returns the state shares, TK1 and
the `rtk` / `rtk_m` tables left behind for message processing. -/
def romulusm_process_ad (I : SkinnyImpl) (st stm : List ℕ) (ad m : List ℕ)
    (tk1 npub k km : List ℕ) : AdOut :=
  let fd := 0x30 ^^^ final_ad_domain ad.length m.length
  let s1 := romulusm_ad_loop I k km ad st stm (SET_DOMAIN tk1 0x28)
  let s2 := romulusm_ad_last I k km s1.rest m s1.st s1.stm s1.tk1
  let s3 := romulusm_m_loop I k km s2.rest s2.st s2.stm (SET_DOMAIN s2.tk1 0x2C)
  let s4 := romulusm_m_last I k km s3.rest s3.st s3.stm s3.tk1
  let tk1c := UPDATE_CTR (SET_DOMAIN s4.2.2 fd)
  let sc := tk_schedule_123 I tk1c npub k km
  let p := I.skinny s4.1 s4.2.1 sc.1 sc.2.1 sc.2.2
  ⟨p.1, p.2, tk1c, sc.1, sc.2.1⟩

/-- The `while (inlen > BLOCKBYTES)` loop of `romulusm_process_msg`
together with the final (at most 16 bytes) keystream block. -/
def romulusm_msg_loop (I : SkinnyImpl) (mode : ℕ) (rtk rtkm : List ℕ) :
    List ℕ → List ℕ → List ℕ → List ℕ → MsgOut
  | i0 :: i1 :: i2 :: i3 :: i4 :: i5 :: i6 :: i7 :: i8 :: i9 :: i10 :: i11 ::
      i12 :: i13 :: i14 :: i15 :: x :: rest, st, stm, tk1 =>
    let rtk1 := tk_schedule_1 I tk1
    let p := I.skinny st stm rtk rtkm rtk1
    let blk := [i0, i1, i2, i3, i4, i5, i6, i7, i8, i9, i10, i11, i12, i13,
      i14, i15]
    let r := if mode = 0 then RHO p.1 p.2 blk else RHO_INV p.1 p.2 blk
    let rec0 := romulusm_msg_loop I mode rtk rtkm (x :: rest) r.1 r.2.1
      (UPDATE_CTR tk1)
    ⟨r.2.2 ++ rec0.out, rec0.st, rec0.stm, rec0.tk1⟩
  | lastBlk, st, stm, tk1 =>
    let rtk1 := tk_schedule_1 I tk1
    let p := I.skinny st stm rtk rtkm rtk1
    let n := lastBlk.length
    let out := (List.range n).map fun i =>
      lastBlockByte (p.1.getD i 0) (p.2.getD i 0) (lastBlk.getD i 0)
    let st1 := List.zipWith (fun s t => (s ^^^ t % 256) % 256)
      (p.1.take n) lastBlk ++ p.1.drop n
    ⟨out, xorAt st1 15 (n % 256), p.2, tk1⟩

/-- `romulusm_process_msg` from romulus_m.c.  `mode = 0` is encryption
(TK1 is re-initialized in place); in decryption mode the state share is
first loaded with the tag found at `inBuf[inlen..inlen+16)` masked by the
second share.  Returns the produced output stream and the final state. -/
def romulusm_process_msg (I : SkinnyImpl) (mode : ℕ) (inBuf : List ℕ)
    (inlen : ℕ) (st stm tk1 rtk rtkm : List ℕ) : MsgOut :=
  let tk1a := if mode = 0 then 1 :: List.replicate 15 0 else tk1
  let sta :=
    if mode = 0 then st
    else (List.range 16).map fun i =>
      (inBuf.getD (inlen + i) 0 ^^^ stm.getD i 0) % 256
  if inlen = 0 then ⟨[], sta, stm, tk1a⟩
  else romulusm_msg_loop I mode rtk rtkm (inBuf.take inlen) sta stm
    (SET_DOMAIN tk1a 0x24)

/-- `romulusm_generate_tag`: apply G to both shares in place and unmask
into the tag buffer.  Returns `(tag, state, state_m)`. -/
def romulusm_generate_tag (st stm : List ℕ) : List ℕ × List ℕ × List ℕ :=
  let s1 := gBlock st
  let s2 := gBlock stm
  (xorBytes s1 s2, s1, s2)

/-- `romulusm_verify_tag`: apply G to both shares in place and accumulate
the unmasked difference with the supplied tag over all 16 bytes into one
OR-accumulator; non-zero means failure. -/
def romulusm_verify_tag (tag st stm : List ℕ) : ℕ :=
  let s1 := gBlock st
  let s2 := gBlock stm
  (List.range 16).foldl
    (fun acc i => acc ||| (s1.getD i 0 ^^^ s2.getD i 0 ^^^ tag.getD i 0)) 0

/-- `romulusn_generate_tag` from romulus_n.c (same body as the M variant). -/
def romulusn_generate_tag (st stm : List ℕ) : List ℕ × List ℕ × List ℕ :=
  let s1 := gBlock st
  let s2 := gBlock stm
  (xorBytes s1 s2, s1, s2)

/-- `romulusn_verify_tag` from romulus_n.c (same body as the M variant). -/
def romulusn_verify_tag (tag st stm : List ℕ) : ℕ :=
  let s1 := gBlock st
  let s2 := gBlock stm
  (List.range 16).foldl
    (fun acc i => acc ||| (s1.getD i 0 ^^^ s2.getD i 0 ^^^ tag.getD i 0)) 0

/-! ## Romulus-M shared-API wrappers (crypto_aead_shared.c of the
protected_romulusm implementation) -/

/-- `crypto_aead_encrypt_shared` for Romulus-M, at the byte level: the
`mask_*_uint32_t` arrays with a single share are exactly their byte views
through the `(uint8_t *)` casts, and the two key-share byte arrays are the
result of `shares_to_bytearr_2`.  Returns `(clen, cs)`. -/
def crypto_aead_encrypt_shared_m (I : SkinnyImpl) (ms ads npub k km : List ℕ) :
    ℕ × List ℕ :=
  let ini := romulusm_init
  let ado := romulusm_process_ad I ini.1 ini.2.1 ads ms ini.2.2 npub k km
  let tg := romulusm_generate_tag ado.st ado.stm
  let pm := romulusm_process_msg I 0 ms ms.length tg.2.1 tg.2.2 ado.tk1
    ado.rtk ado.rtkm
  (ms.length + 16, pm.out ++ tg.1)

/-- `crypto_aead_decrypt_shared` for Romulus-M, at the byte level.  The
plaintext output buffer and the `*mlen` location are threaded through as
`msInit` / `mlenInit` so that the embedding captures what the C code
writes and what it leaves untouched.  Returns
`(return value, ms, mlen)`. -/
def crypto_aead_decrypt_shared_m (I : SkinnyImpl) (cs : List ℕ) (clen : ℕ)
    (ads npub k km msInit : List ℕ) (mlenInit : ℕ) : ℤ × List ℕ × ℕ :=
  if clen < 16 then (-1, msInit, mlenInit)
  else
    let mlen := clen - 16
    let ini := romulusm_init
    let sc := tk_schedule_23 I npub k km
    let pm := romulusm_process_msg I 1 cs mlen ini.1 ini.2.1 ini.2.2 sc.1 sc.2
    let ini2 := romulusm_init
    let ado := romulusm_process_ad I ini2.1 ini2.2.1 ads pm.out ini2.2.2
      npub k km
    ((romulusm_verify_tag (cs.drop mlen) ado.st ado.stm : ℕ),
      pm.out ++ msInit.drop mlen, mlen)

/-! ## Romulus-N core pieces cited by the claims -/

/-- `romulusn_init` from romulus_n.c: TK1 is set to 0x0100...00 and both
state shares are zeroized. -/
def romulusn_init : List ℕ × List ℕ × List ℕ :=
  (List.replicate 16 0, List.replicate 16 0, 1 :: List.replicate 15 0)

/-! ## Romulus-T shared-API wrapper (crypto_aead_shared.c of the
protected_romulust implementation)

The Romulus-T core functions (`romulust_kdf`, `romulust_process_msg`,
`romulust_generate_tag`) are not among the sources; the wrapper embedding
is parameterized by them. -/

structure RomulusTImpl where
  kdf : List ℕ → List ℕ → List ℕ → List ℕ → List ℕ → List ℕ
  processMsg : List ℕ → List ℕ → List ℕ → List ℕ → ℕ → List ℕ
  genTag : List ℕ → List ℕ → ℕ → List ℕ → ℕ → List ℕ → List ℕ → List ℕ →
    List ℕ → List ℕ

/-- `crypto_aead_decrypt_shared` for Romulus-T, at the byte level: length
check, `*mlen` update, in-place unmasking of the nonce, tag recomputation
over AD and ciphertext, constant-time tag comparison with early return
`-1` on mismatch, and only then KDF and message processing.  The plaintext
buffer and `*mlen` are threaded through as `msInit` / `mlenInit`. -/
def crypto_aead_decrypt_shared_t (T : RomulusTImpl) (cs : List ℕ)
    (clen : ℕ) (ads : List ℕ) (adlen : ℕ) (npub npubm k km msInit : List ℕ)
    (mlenInit : ℕ) : ℤ × List ℕ × ℕ :=
  if clen < 16 then (-1, msInit, mlenInit)
  else
    let mlen := clen - 16
    let npub1 := xorBytes npub npubm
    let tk1 := List.replicate 16 0
    let state := T.genTag tk1 ads adlen cs mlen npub1 npubm k km
    let tmp := (List.range 16).foldl
      (fun acc i => acc ||| (state.getD i 0 ^^^ cs.getD (clen - 16 + i) 0)) 0
    if tmp ≠ 0 then (-1, msInit, mlen)
    else
      let tk1b := List.replicate 16 0
      let st2 := T.kdf tk1b npub1 npubm k km
      let out := T.processMsg st2 tk1b npub1 cs mlen
      (0, out ++ msInit.drop mlen, mlen)

/-! ## The first-order secure AND gadget (masked SKINNY assembly) -/

/-- All 32 bits set; `orn rd, rn, rm` computes `rn | ~rm` on 32-bit
registers, i.e. `rn ||| (mask32 ^^^ rm)`. -/
def mask32 : ℕ := 0xffffffff

/-- The `secand` macro: first-order secure AND between the Boolean-masked
values `(x1, x2)` and `(y1, y2)`, instruction by instruction. -/
def secand (x1 x2 y1 y2 : ℕ) : ℕ × ℕ :=
  let tmp1 := x1 ||| (mask32 ^^^ y2)
  let z1 := x1 &&& y1
  let z1f := tmp1 ^^^ z1
  let tmp2 := x2 ||| (mask32 ^^^ y2)
  let z2 := x2 &&& y1
  (z1f, z2 ^^^ tmp2)

/-- The formula asserted by the claim (and spec 4.1) for the gadget,
reading `combined with` as XOR: output share i is
`(NOT(x_other) AND y_same) XOR (x_same AND y_same)`. -/
def secand_claim_formula (x1 x2 y1 y2 : ℕ) : ℕ × ℕ :=
  (((mask32 ^^^ x2) &&& y1) ^^^ (x1 &&& y1),
    ((mask32 ^^^ x1) &&& y2) ^^^ (x2 &&& y2))

/-! ## Share-conversion word packing (generate_shares_encrypt /
generate_shares_decrypt) -/

/-- The word-packing pattern of `generate_shares_encrypt` and
`generate_shares_decrypt` applied to one input stream (message, ciphertext
or AD): full words are assembled with `=` then `|=`; when the length is
not a multiple of four the code sets the word at index `len/4 + 1` to zero
and ORs the `len % 4` trailing bytes into the word at index `len/4`, whose
previous contents `mem (len/4)` are never cleared.  `mem` is the prior
contents of the destination array. -/
def packWords (mem : ℕ → ℕ) (m : List ℕ) : ℕ → ℕ :=
  fun j =>
    let n := m.length
    let r := n % 4
    if j < n / 4 then
      wordOfBytes (m.getD (4 * j) 0) (m.getD (4 * j + 1) 0)
        (m.getD (4 * j + 2) 0) (m.getD (4 * j + 3) 0)
    else if r ≠ 0 ∧ j = n / 4 + 1 then 0
    else if r ≠ 0 ∧ j = n / 4 then
      (List.range r).foldl
        (fun acc i => acc ||| (m.getD (n - r + i) 0) <<< (8 * i)) (mem j)
    else mem j

/-- The message words written by `generate_shares_encrypt` (share 0). -/
def generate_shares_encrypt_ms (mem : ℕ → ℕ) (m : List ℕ) : ℕ → ℕ :=
  packWords mem m

/-- The ciphertext words written by `generate_shares_decrypt` (share 0). -/
def generate_shares_decrypt_cs (mem : ℕ → ℕ) (c : List ℕ) : ℕ → ℕ :=
  packWords mem c

/-! ## The 56-bit block counter -/

/-- The 56-bit counter held in bytes 0..6 of TK1, as a natural number
(little endian). -/
def ctr56 (tk1 : List ℕ) : ℕ :=
  tk1.getD 0 0 + 2 ^ 8 * tk1.getD 1 0 + 2 ^ 16 * tk1.getD 2 0 +
    2 ^ 24 * tk1.getD 3 0 + 2 ^ 32 * tk1.getD 4 0 + 2 ^ 40 * tk1.getD 5 0 +
    2 ^ 48 * tk1.getD 6 0

/-! ## Domain-byte case analysis for claim C7 -/

/-- The four-way structural classification of the AD length used by the
claim: 0 = absent/empty, 1 = odd number of full blocks, 2 = even number of
full blocks, 3 = trailing partial block. -/
def specAdCase (adlen : ℕ) : ℕ :=
  if adlen = 0 then 0
  else if adlen % 32 = 16 then 1
  else if adlen % 32 = 0 then 2
  else 3

/-- Same classification for the message length. -/
def specMsgCase (mlen : ℕ) : ℕ :=
  if mlen = 0 then 0
  else if mlen % 32 = 16 then 1
  else if mlen % 32 = 0 then 2
  else 3

/-- The AD contribution actually returned by `final_ad_domain`: empty AD
and a trailing partial single block share the value 0x02; an even number
of full blocks gives 0x08, a trailing partial double block 0x0A, an odd
number of full blocks 0x00. -/
def adDomainByte (adlen : ℕ) : ℕ :=
  if adlen = 0 then 0x02
  else if adlen % 32 = 0 then 0x08
  else if adlen % 32 < 16 then 0x02
  else if adlen % 32 > 16 then 0x0A
  else 0

/-- The message contribution actually returned by `final_ad_domain`. -/
def msgDomainByte (mlen : ℕ) : ℕ :=
  if mlen = 0 then 0x01
  else if mlen % 32 = 0 then 0x04
  else if mlen % 32 < 16 then 0x01
  else if mlen % 32 > 16 then 0x05
  else 0

/-! ## Concrete kernel instantiations used by the witnesses -/

/-- A trivial cipher kernel: both output shares are the zero block.  It
satisfies the masking-correctness contract with `cipherZ` and is used to
evaluate the drivers on concrete inputs. -/
def skinnyZ : SkinnyImpl where
  skinny := fun _ _ _ _ _ => (List.replicate 16 0, List.replicate 16 0)
  tksPerm1 := fun t => t
  lfsrPerm23 := fun a b => a ++ b
  lfsrPerm3m := fun a => a

/-- The unmasked cipher corresponding to `skinnyZ`. -/
def cipherZ : List ℕ → List ℕ → List ℕ → List ℕ → List ℕ :=
  fun _ _ _ _ => List.replicate 16 0

/-- A trivial Romulus-T kernel set used to evaluate the Romulus-T wrapper
on concrete inputs. -/
def romulusTZ : RomulusTImpl where
  kdf := fun _ _ _ _ _ => List.replicate 16 0
  processMsg := fun _ _ _ c n => c.take n
  genTag := fun _ _ _ _ _ _ _ _ _ => List.replicate 16 0

/-! ## Utility lemmas -/

theorem lor_eq_zero_iff (x y : ℕ) : x ||| y = 0 ↔ x = 0 ∧ y = 0 := by
  constructor
  · intro h
    constructor <;>
      · apply Nat.eq_of_testBit_eq
        intro i
        have hb : (x ||| y).testBit i = false := by rw [h]; simp
        rw [Nat.testBit_or] at hb
        rcases Bool.or_eq_false_iff.mp hb with ⟨h1, h2⟩
        simp only [h1, h2, Nat.zero_testBit]
  · rintro ⟨rfl, rfl⟩; rfl

theorem isBytes_take {l : List ℕ} (h : IsBytes l) (n : ℕ) :
    IsBytes (l.take n) :=
  fun b hb => h b (List.mem_of_mem_take hb)

theorem isBytes_drop {l : List ℕ} (h : IsBytes l) (n : ℕ) :
    IsBytes (l.drop n) :=
  fun b hb => h b (List.mem_of_mem_drop hb)

theorem isBytes_append {a b : List ℕ} (ha : IsBytes a) (hb : IsBytes b) :
    IsBytes (a ++ b) := by
  intro x hx
  rcases List.mem_append.mp hx with h | h
  · exact ha x h
  · exact hb x h

theorem isBytes_replicate (n v : ℕ) (h : v < 256) :
    IsBytes (List.replicate n v) := by
  intro x hx
  rw [List.eq_of_mem_replicate hx]
  exact h

theorem block16_take16 {l : List ℕ} (h : IsBytes l) (hlen : 16 ≤ l.length) :
    Block16 (l.take 16) :=
  ⟨by simp [List.length_take]; omega, isBytes_take h 16⟩

theorem block16_xorBytes {a b : List ℕ} (ha : Block16 a) (hb : Block16 b) :
    Block16 (xorBytes a b) :=
  ⟨by rw [xorBytes_length, ha.1, hb.1]; simp, xorBytes_isBytes ha.2 hb.2⟩

theorem block16_gBlock {a : List ℕ} (ha : Block16 a) : Block16 (gBlock a) :=
  ⟨by rw [gBlock_length, ha.1], gBlock_isBytes a⟩

theorem block16_replicate : Block16 (List.replicate 16 0) :=
  ⟨by simp, isBytes_replicate 16 0 (by omega)⟩

theorem xorBytes_cancel_left {a b : List ℕ} (h : a.length = b.length) :
    xorBytes a (xorBytes a b) = b := by
  induction a generalizing b with
  | nil => cases b with
    | nil => rfl
    | cons y ys => simp at h
  | cons x xs ih =>
    cases b with
    | nil => simp at h
    | cons y ys =>
      simp only [List.length_cons] at h
      simp [xorBytes] at ih ⊢
      exact ⟨by rw [← Nat.xor_assoc, Nat.xor_self, Nat.zero_xor],
        ih (by omega)⟩

theorem xorBytes_right_comm (a b c : List ℕ) :
    xorBytes (xorBytes a b) c = xorBytes (xorBytes a c) b := by
  rw [xorBytes_assoc, xorBytes_assoc, xorBytes_comm b c]

theorem xorBytes_getD {a b : List ℕ} {i : ℕ} (hia : i < a.length)
    (hib : i < b.length) :
    (xorBytes a b).getD i 0 = a.getD i 0 ^^^ b.getD i 0 := by
  have hi : i < (xorBytes a b).length := by rw [xorBytes_length]; omega
  rw [List.getD_eq_getElem _ _ hi, List.getD_eq_getElem _ _ hia,
    List.getD_eq_getElem _ _ hib]
  simp [xorBytes]

theorem range_map_getD (l : List ℕ) :
    (List.range l.length).map (fun i => l.getD i 0) = l := by
  apply List.ext_getElem
  · simp
  · intro i h1 h2
    simp [List.getD_eq_getElem?_getD, List.getElem?_eq_getElem h2]

theorem lorFold_eq_zero_iff (f : ℕ → ℕ) (n : ℕ) :
    ((List.range n).foldl (fun acc i => acc ||| f i) 0 = 0) ↔
      ∀ i < n, f i = 0 := by
  induction n with
  | zero => simp
  | succ m ih =>
    rw [List.range_succ, List.foldl_append]
    simp only [List.foldl_cons, List.foldl_nil]
    rw [lor_eq_zero_iff, ih]
    constructor
    · rintro ⟨h1, h2⟩ i hi
      rcases Nat.lt_succ_iff_lt_or_eq.mp hi with h | rfl
      · exact h1 i h
      · exact h2
    · intro h
      exact ⟨fun i hi => h i (by omega), h m (by omega)⟩

theorem RHO_spec {x xm z : List ℕ} (hx : Block16 x) (hxm : Block16 xm)
    (hz : Block16 z) :
    RHO x xm z =
      (xorBytes x z, xm, xorBytes (gBlock xm) (xorBytes (gBlock x) z)) := by
  have hgx := block16_gBlock hx
  have hgxm := block16_gBlock hxm
  show (xorBlock x z, xm, xorBlock (gBlock xm) (xorBlock (gBlock x) z)) = _
  rw [xorBlock_eq hgx.2 hz.2 (by rw [hgx.1, hz.1]) (by rw [hgx.1]),
    xorBlock_eq hgxm.2 (block16_xorBytes hgx hz).2
      (by rw [hgxm.1, (block16_xorBytes hgx hz).1]) (by rw [hgxm.1]),
    xorBlock_eq hx.2 hz.2 (by rw [hx.1, hz.1]) (by rw [hx.1])]

theorem RHO_INV_spec {x xm y : List ℕ} (hx : Block16 x) (hxm : Block16 xm)
    (hy : Block16 y) :
    RHO_INV x xm y =
      (xorBytes x (xorBytes (gBlock xm) (xorBytes (gBlock x) y)), xm,
        xorBytes (gBlock xm) (xorBytes (gBlock x) y)) := by
  have hgx := block16_gBlock hx
  have hgxm := block16_gBlock hxm
  have hz1 := block16_xorBytes hgx hy
  have hz2 := block16_xorBytes hgxm hz1
  show (xorBlock x (xorBlock (gBlock xm) (xorBlock (gBlock x) y)), xm,
    xorBlock (gBlock xm) (xorBlock (gBlock x) y)) = _
  rw [xorBlock_eq hgx.2 hy.2 (by rw [hgx.1, hy.1]) (by rw [hgx.1]),
    xorBlock_eq hgxm.2 hz1.2 (by rw [hgxm.1, hz1.1]) (by rw [hgxm.1]),
    xorBlock_eq hx.2 hz2.2 (by rw [hx.1, hz2.1]) (by rw [hx.1])]

theorem msg_loop_step (I : SkinnyImpl) (mode : ℕ) (rtk rtkm : List ℕ)
    (input st stm tk1 : List ℕ) (h : 16 < input.length) :
    romulusm_msg_loop I mode rtk rtkm input st stm tk1 =
      let p := I.skinny st stm rtk rtkm (tk_schedule_1 I tk1)
      let r := if mode = 0 then RHO p.1 p.2 (input.take 16)
        else RHO_INV p.1 p.2 (input.take 16)
      let rec0 := romulusm_msg_loop I mode rtk rtkm (input.drop 16) r.1 r.2.1
        (UPDATE_CTR tk1)
      ⟨r.2.2 ++ rec0.out, rec0.st, rec0.stm, rec0.tk1⟩ := by
  rcases input with _ | ⟨b0, _ | ⟨b1, _ | ⟨b2, _ | ⟨b3, _ | ⟨b4, _ | ⟨b5,
    _ | ⟨b6, _ | ⟨b7, _ | ⟨b8, _ | ⟨b9, _ | ⟨b10, _ | ⟨b11, _ | ⟨b12,
    _ | ⟨b13, _ | ⟨b14, _ | ⟨b15, _ | ⟨x, rest⟩⟩⟩⟩⟩⟩⟩⟩⟩⟩⟩⟩⟩⟩⟩⟩⟩
  · simp at h
  · simp at h
  · simp at h
  · simp at h
  · simp at h
  · simp at h
  · simp at h
  · simp at h
  · simp at h
  · simp at h
  · simp at h
  · simp at h
  · simp at h
  · simp at h
  · simp at h
  · simp at h
  · simp at h
  · simp only [romulusm_msg_loop, List.take_succ_cons, List.take_zero,
      List.drop_succ_cons, List.drop_zero]

theorem msg_loop_last (I : SkinnyImpl) (mode : ℕ) (rtk rtkm : List ℕ)
    (input st stm tk1 : List ℕ) (h : input.length ≤ 16) :
    romulusm_msg_loop I mode rtk rtkm input st stm tk1 =
      let p := I.skinny st stm rtk rtkm (tk_schedule_1 I tk1)
      let n := input.length
      ⟨(List.range n).map fun i =>
          lastBlockByte (p.1.getD i 0) (p.2.getD i 0) (input.getD i 0),
        xorAt (List.zipWith (fun s t => (s ^^^ t % 256) % 256)
          (p.1.take n) input ++ p.1.drop n) 15 (n % 256),
        p.2, tk1⟩ := by
  rcases input with _ | ⟨b0, _ | ⟨b1, _ | ⟨b2, _ | ⟨b3, _ | ⟨b4, _ | ⟨b5,
    _ | ⟨b6, _ | ⟨b7, _ | ⟨b8, _ | ⟨b9, _ | ⟨b10, _ | ⟨b11, _ | ⟨b12,
    _ | ⟨b13, _ | ⟨b14, _ | ⟨b15, _ | ⟨x, rest⟩⟩⟩⟩⟩⟩⟩⟩⟩⟩⟩⟩⟩⟩⟩⟩⟩
  · rfl
  · rfl
  · rfl
  · rfl
  · rfl
  · rfl
  · rfl
  · rfl
  · rfl
  · rfl
  · rfl
  · rfl
  · rfl
  · rfl
  · rfl
  · rfl
  · rfl
  · simp only [List.length_cons] at h; omega

theorem xorBlock_isBytes (y z : List ℕ) : IsBytes (xorBlock y z) :=
  wordsToBytes_isBytes _

theorem xorBlock_length (y z : List ℕ) :
    (xorBlock y z).length = 4 * min (y.length / 4) (z.length / 4) := by
  simp [xorBlock, wordsToBytes_length, bytesToWords_length]

theorem RHO_out_block16 {p1 p2 blk : List ℕ} (h1 : p1.length = 16)
    (h2 : p2.length = 16) (hb : blk.length = 16) :
    Block16 (RHO p1 p2 blk).2.2 ∧ Block16 (RHO p1 p2 blk).1 := by
  constructor
  · refine ⟨?_, xorBlock_isBytes _ _⟩
    show (xorBlock (gBlock p2) (xorBlock (gBlock p1) blk)).length = 16
    rw [xorBlock_length, gBlock_length, xorBlock_length, gBlock_length,
      h1, h2, hb]
    omega
  · refine ⟨?_, xorBlock_isBytes _ _⟩
    show (xorBlock p1 blk).length = 16
    rw [xorBlock_length, h1, hb]
    omega

theorem RHO_INV_out_block16 {p1 p2 blk : List ℕ} (h1 : p1.length = 16)
    (h2 : p2.length = 16) (hb : blk.length = 16) :
    Block16 (RHO_INV p1 p2 blk).2.2 ∧ Block16 (RHO_INV p1 p2 blk).1 := by
  have hz : (xorBlock (gBlock p2) (xorBlock (gBlock p1) blk)).length = 16 := by
    rw [xorBlock_length, gBlock_length, xorBlock_length, gBlock_length,
      h1, h2, hb]
    omega
  constructor
  · exact ⟨hz, xorBlock_isBytes _ _⟩
  · refine ⟨?_, xorBlock_isBytes _ _⟩
    show (xorBlock p1 (xorBlock (gBlock p2) (xorBlock (gBlock p1) blk))).length
      = 16
    rw [xorBlock_length, h1, hz]
    omega

theorem lastBlockByte_lt (s sm c : ℕ) : lastBlockByte s sm c < 256 := by
  unfold lastBlockByte
  omega

theorem msg_loop_out_length (I : SkinnyImpl) (hWF : SkinnyWF I) (mode : ℕ)
    (rtk rtkm : List ℕ) :
    ∀ n (input st stm tk1 : List ℕ), input.length = n →
      (romulusm_msg_loop I mode rtk rtkm input st stm tk1).out.length =
        input.length := by
  intro n
  induction n using Nat.strong_induction_on with
  | _ n ih =>
    intro input st stm tk1 hlen
    by_cases h : 16 < input.length
    · rw [msg_loop_step I mode rtk rtkm input st stm tk1 h]
      simp only [List.length_append]
      have hp := hWF st stm rtk rtkm (tk_schedule_1 I tk1)
      have hblk : (input.take 16).length = 16 := by
        rw [List.length_take]; omega
      have hrlen : (if mode = 0
          then RHO (I.skinny st stm rtk rtkm (tk_schedule_1 I tk1)).1
            (I.skinny st stm rtk rtkm (tk_schedule_1 I tk1)).2 (input.take 16)
          else RHO_INV (I.skinny st stm rtk rtkm (tk_schedule_1 I tk1)).1
            (I.skinny st stm rtk rtkm (tk_schedule_1 I tk1)).2
            (input.take 16)).2.2.length = 16 := by
        by_cases hm : mode = 0 <;> simp only [hm, if_true, if_false, if_pos,
          if_neg, ne_eq, not_false_iff]
        · exact (RHO_out_block16 hp.1.1 hp.2.1 hblk).1.1
        · exact (RHO_INV_out_block16 hp.1.1 hp.2.1 hblk).1.1
      rw [hrlen, ih (input.drop 16).length (by simp; omega) _ _ _ _ rfl]
      simp only [List.length_drop]
      omega
    · rw [msg_loop_last I mode rtk rtkm input st stm tk1 (by omega)]
      simp

theorem msg_loop_out_isBytes (I : SkinnyImpl) (mode : ℕ)
    (rtk rtkm : List ℕ) :
    ∀ n (input st stm tk1 : List ℕ), input.length = n →
      IsBytes (romulusm_msg_loop I mode rtk rtkm input st stm tk1).out := by
  intro n
  induction n using Nat.strong_induction_on with
  | _ n ih =>
    intro input st stm tk1 hlen
    by_cases h : 16 < input.length
    · rw [msg_loop_step I mode rtk rtkm input st stm tk1 h]
      apply isBytes_append
      · by_cases hm : mode = 0 <;> simp only [hm, if_true, if_false, if_pos,
          if_neg, ne_eq, not_false_iff] <;> exact xorBlock_isBytes _ _
      · exact ih (input.drop 16).length (by simp; omega) _ _ _ _ rfl
    · rw [msg_loop_last I mode rtk rtkm input st stm tk1 (by omega)]
      intro x hx
      simp only [List.mem_map] at hx
      obtain ⟨i, _, rfl⟩ := hx
      exact lastBlockByte_lt _ _ _

theorem gsum8_xor (x y : ℕ) :
    ((x ^^^ y) >>> 1) ^^^ ((x ^^^ y) &&& 0x80) ^^^ (x ^^^ y) <<< 7 =
      ((x >>> 1) ^^^ (x &&& 0x80) ^^^ x <<< 7) ^^^
        ((y >>> 1) ^^^ (y &&& 0x80) ^^^ y <<< 7) := by
  rw [shiftRight_xor, and_xor_right, shiftLeft_xor]
  simp only [Nat.xor_assoc]
  simp [Nat.xor_comm, xor_left_comm, Nat.xor_assoc]

theorem mod256_xor_mod256 (x y : ℕ) :
    (x % 256 ^^^ y) % 256 = (x ^^^ y) % 256 := by
  rw [eq_256_pow, xor_mod_two_pow, xor_mod_two_pow,
    Nat.mod_mod_of_dvd x (dvd_refl _)]

theorem mod256_xor2 (x y z : ℕ) :
    (x % 256 ^^^ y ^^^ z) % 256 = (x ^^^ y ^^^ z) % 256 := by
  rw [Nat.xor_assoc (x % 256) y z, mod256_xor_mod256, Nat.xor_assoc]

theorem xor_cancel4 (t a b c d : ℕ) (h : a ^^^ b = c ^^^ d) :
    t ^^^ a ^^^ b ^^^ c ^^^ d = t := by
  rw [Nat.xor_assoc t a b, h, Nat.xor_assoc (t ^^^ (c ^^^ d)) c d,
    Nat.xor_assoc t (c ^^^ d) (c ^^^ d), Nat.xor_self, Nat.xor_zero]

theorem lastBlockByte_eq (s sm c : ℕ) :
    lastBlockByte s sm c =
      (c ^^^ ((s >>> 1) ^^^ (s &&& 0x80) ^^^ s <<< 7) ^^^
        ((sm >>> 1) ^^^ (sm &&& 0x80) ^^^ sm <<< 7)) % 256 := by
  unfold lastBlockByte
  rw [mod256_xor_mod256]
  congr 1
  simp only [Nat.xor_assoc]

theorem lastBlockByte_inv {s1 s2 u1 u2 t : ℕ} (ht : t < 256)
    (h : s1 ^^^ s2 = u1 ^^^ u2) :
    lastBlockByte u1 u2 (lastBlockByte s1 s2 t) = t := by
  have hv : ((s1 >>> 1) ^^^ (s1 &&& 0x80) ^^^ s1 <<< 7) ^^^
      ((s2 >>> 1) ^^^ (s2 &&& 0x80) ^^^ s2 <<< 7) =
      ((u1 >>> 1) ^^^ (u1 &&& 0x80) ^^^ u1 <<< 7) ^^^
      ((u2 >>> 1) ^^^ (u2 &&& 0x80) ^^^ u2 <<< 7) := by
    rw [← gsum8_xor, ← gsum8_xor, h]
  rw [lastBlockByte_eq, lastBlockByte_eq, mod256_xor2,
    xor_cancel4 _ _ _ _ _ hv]
  exact Nat.mod_eq_of_lt ht

theorem msg_loop_step_enc (I : SkinnyImpl) (rtk rtkm : List ℕ)
    (input st stm tk1 : List ℕ) (h : 16 < input.length) :
    romulusm_msg_loop I 0 rtk rtkm input st stm tk1 =
      let p := I.skinny st stm rtk rtkm (tk_schedule_1 I tk1)
      let r := RHO p.1 p.2 (input.take 16)
      let rec0 := romulusm_msg_loop I 0 rtk rtkm (input.drop 16) r.1 r.2.1
        (UPDATE_CTR tk1)
      ⟨r.2.2 ++ rec0.out, rec0.st, rec0.stm, rec0.tk1⟩ := by
  rw [msg_loop_step I 0 rtk rtkm input st stm tk1 h]
  simp only [if_pos]

theorem msg_loop_step_dec (I : SkinnyImpl) (rtk rtkm : List ℕ)
    (input st stm tk1 : List ℕ) (h : 16 < input.length) :
    romulusm_msg_loop I 1 rtk rtkm input st stm tk1 =
      let p := I.skinny st stm rtk rtkm (tk_schedule_1 I tk1)
      let r := RHO_INV p.1 p.2 (input.take 16)
      let rec0 := romulusm_msg_loop I 1 rtk rtkm (input.drop 16) r.1 r.2.1
        (UPDATE_CTR tk1)
      ⟨r.2.2 ++ rec0.out, rec0.st, rec0.stm, rec0.tk1⟩ := by
  rw [msg_loop_step I 1 rtk rtkm input st stm tk1 h]
  simp only [if_neg (by omega : ¬(1 : ℕ) = 0)]

theorem msg_loop_inv (I : SkinnyImpl) (rtk rtkm : List ℕ) (hWF : SkinnyWF I)
    (hf : ∀ tk1 a b c d : List ℕ, xorBytes a b = xorBytes c d →
      xorBytes (I.skinny a b rtk rtkm (tk_schedule_1 I tk1)).1
        (I.skinny a b rtk rtkm (tk_schedule_1 I tk1)).2 =
      xorBytes (I.skinny c d rtk rtkm (tk_schedule_1 I tk1)).1
        (I.skinny c d rtk rtkm (tk_schedule_1 I tk1)).2) :
    ∀ n (input a b c d tk1 : List ℕ), input.length = n → IsBytes input →
      xorBytes a b = xorBytes c d →
      (romulusm_msg_loop I 1 rtk rtkm
          (romulusm_msg_loop I 0 rtk rtkm input a b tk1).out
          c d tk1).out = input := by
  intro n
  induction n using Nat.strong_induction_on with
  | _ n ih =>
    intro input a b c d tk1 hlen hbytes hinv
    have hfE := hf tk1 a b c d hinv
    by_cases h : 16 < input.length
    · have hpE := hWF a b rtk rtkm (tk_schedule_1 I tk1)
      have hpD := hWF c d rtk rtkm (tk_schedule_1 I tk1)
      have hblkB : Block16 (input.take 16) :=
        ⟨by rw [List.length_take]; omega, isBytes_take hbytes 16⟩
      rw [msg_loop_step_enc I rtk rtkm input a b tk1 h]
      simp only []
      rw [RHO_spec hpE.1 hpE.2 hblkB]
      have houtE : Block16 (xorBytes
          (gBlock (I.skinny a b rtk rtkm (tk_schedule_1 I tk1)).2)
          (xorBytes (gBlock (I.skinny a b rtk rtkm (tk_schedule_1 I tk1)).1)
            (input.take 16))) :=
        block16_xorBytes (block16_gBlock hpE.2)
          (block16_xorBytes (block16_gBlock hpE.1) hblkB)
      have hreclen : (romulusm_msg_loop I 0 rtk rtkm (input.drop 16)
          (xorBytes (I.skinny a b rtk rtkm (tk_schedule_1 I tk1)).1
            (input.take 16))
          (I.skinny a b rtk rtkm (tk_schedule_1 I tk1)).2
          (UPDATE_CTR tk1)).out.length = input.length - 16 := by
        rw [msg_loop_out_length I hWF 0 rtk rtkm (input.drop 16).length _ _ _ _
          rfl]
        simp
      rw [msg_loop_step_dec I rtk rtkm _ c d tk1
        (by simp only [List.length_append, houtE.1, hreclen]; omega)]
      simp only []
      rw [List.take_left' houtE.1, List.drop_left' houtE.1]
      rw [RHO_INV_spec hpD.1 hpD.2 houtE]
      have hVW : xorBytes
          (gBlock (I.skinny c d rtk rtkm (tk_schedule_1 I tk1)).2)
          (gBlock (I.skinny c d rtk rtkm (tk_schedule_1 I tk1)).1) =
          xorBytes (gBlock (I.skinny a b rtk rtkm (tk_schedule_1 I tk1)).2)
          (gBlock (I.skinny a b rtk rtkm (tk_schedule_1 I tk1)).1) := by
        rw [← gBlock_xor hpD.2.2 hpD.1.2 (by rw [hpD.2.1, hpD.1.1]),
          ← gBlock_xor hpE.2.2 hpE.1.2 (by rw [hpE.2.1, hpE.1.1])]
        congr 1
        rw [xorBytes_comm, ← hfE, xorBytes_comm]
      have hzD : xorBytes
          (gBlock (I.skinny c d rtk rtkm (tk_schedule_1 I tk1)).2)
          (xorBytes (gBlock (I.skinny c d rtk rtkm (tk_schedule_1 I tk1)).1)
            (xorBytes (gBlock (I.skinny a b rtk rtkm (tk_schedule_1 I tk1)).2)
              (xorBytes (gBlock
                (I.skinny a b rtk rtkm (tk_schedule_1 I tk1)).1)
                (input.take 16)))) = input.take 16 := by
        rw [← xorBytes_assoc (gBlock
            (I.skinny a b rtk rtkm (tk_schedule_1 I tk1)).2)
          (gBlock (I.skinny a b rtk rtkm (tk_schedule_1 I tk1)).1)
          (input.take 16)]
        rw [← xorBytes_assoc (gBlock
            (I.skinny c d rtk rtkm (tk_schedule_1 I tk1)).2)
          (gBlock (I.skinny c d rtk rtkm (tk_schedule_1 I tk1)).1) _]
        rw [hVW]
        apply xorBytes_cancel_left
        rw [xorBytes_length, (block16_gBlock hpE.2).1, (block16_gBlock hpE.1).1,
          hblkB.1]
        simp
      rw [hzD]
      have hinvN : xorBytes
          (xorBytes (I.skinny a b rtk rtkm (tk_schedule_1 I tk1)).1
            (input.take 16))
          (I.skinny a b rtk rtkm (tk_schedule_1 I tk1)).2 =
          xorBytes (xorBytes (I.skinny c d rtk rtkm (tk_schedule_1 I tk1)).1
            (input.take 16))
          (I.skinny c d rtk rtkm (tk_schedule_1 I tk1)).2 := by
        rw [xorBytes_right_comm, hfE, xorBytes_right_comm]
      rw [ih (input.length - 16) (by omega) (input.drop 16) _ _ _ _
        (UPDATE_CTR tk1) (by simp) (isBytes_drop hbytes 16) hinvN]
      exact List.take_append_drop 16 input
    · have hle : input.length ≤ 16 := by omega
      have hpE := hWF a b rtk rtkm (tk_schedule_1 I tk1)
      have hpD := hWF c d rtk rtkm (tk_schedule_1 I tk1)
      rw [msg_loop_last I 0 rtk rtkm input a b tk1 hle]
      simp only []
      rw [msg_loop_last I 1 rtk rtkm _ c d tk1 (by simp; omega)]
      simp only [List.length_map, List.length_range]
      have hpt : ∀ i ∈ List.range input.length,
          lastBlockByte ((I.skinny c d rtk rtkm (tk_schedule_1 I tk1)).1.getD i 0)
            ((I.skinny c d rtk rtkm (tk_schedule_1 I tk1)).2.getD i 0)
            (((List.range input.length).map fun j =>
              lastBlockByte
                ((I.skinny a b rtk rtkm (tk_schedule_1 I tk1)).1.getD j 0)
                ((I.skinny a b rtk rtkm (tk_schedule_1 I tk1)).2.getD j 0)
                (input.getD j 0)).getD i 0) = input.getD i 0 := by
        intro i hi
        rw [List.mem_range] at hi
        have hmap : ((List.range input.length).map fun j =>
            lastBlockByte
              ((I.skinny a b rtk rtkm (tk_schedule_1 I tk1)).1.getD j 0)
              ((I.skinny a b rtk rtkm (tk_schedule_1 I tk1)).2.getD j 0)
              (input.getD j 0)).getD i 0 =
            lastBlockByte
              ((I.skinny a b rtk rtkm (tk_schedule_1 I tk1)).1.getD i 0)
              ((I.skinny a b rtk rtkm (tk_schedule_1 I tk1)).2.getD i 0)
              (input.getD i 0) := by
          have hl : i < ((List.range input.length).map fun j =>
              lastBlockByte
                ((I.skinny a b rtk rtkm (tk_schedule_1 I tk1)).1.getD j 0)
                ((I.skinny a b rtk rtkm (tk_schedule_1 I tk1)).2.getD j 0)
                (input.getD j 0)).length := by simp [hi]
          rw [List.getD_eq_getElem _ _ hl]
          simp [hi]
        rw [hmap]
        apply lastBlockByte_inv
        · have hg : input.getD i 0 = input[i] := List.getD_eq_getElem _ _ hi
          rw [hg]
          exact hbytes _ (List.getElem_mem _)
        · have h16 : i < 16 := by omega
          have he := congrArg (fun l => l.getD i 0) hfE
          simp only at he
          rw [xorBytes_getD (by rw [hpE.1.1]; omega) (by rw [hpE.2.1]; omega),
            xorBytes_getD (by rw [hpD.1.1]; omega) (by rw [hpD.2.1]; omega)]
            at he
          exact he
      rw [List.map_congr_left hpt, range_map_getD]

theorem append_getD_right (l1 l2 : List ℕ) (i : ℕ) :
    (l1 ++ l2).getD (l1.length + i) 0 = l2.getD i 0 := by
  rw [List.getD_eq_getElem?_getD, List.getD_eq_getElem?_getD,
    List.getElem?_append_right (by omega : l1.length ≤ l1.length + i),
    show l1.length + i - l1.length = i from by omega]

theorem getD_replicate_zero (n i : ℕ) :
    (List.replicate n 0).getD i 0 = 0 := by
  rcases lt_or_ge i n with h | h
  · rw [List.getD_eq_getElem _ _ (by simp [h])]
    exact List.getElem_replicate _ _
  · rw [List.getD_eq_default _ _ (by simp [h])]

theorem process_ad_rtk (I : SkinnyImpl) (st stm ad m tk1 npub k km : List ℕ) :
    (romulusm_process_ad I st stm ad m tk1 npub k km).rtk =
        I.lfsrPerm23 npub k ∧
      (romulusm_process_ad I st stm ad m tk1 npub k km).rtkm =
        I.lfsrPerm3m km := by
  constructor <;> rfl

theorem process_ad_wf {I : SkinnyImpl} (hWF : SkinnyWF I)
    (st stm ad m tk1 npub k km : List ℕ) :
    Block16 (romulusm_process_ad I st stm ad m tk1 npub k km).st ∧
      Block16 (romulusm_process_ad I st stm ad m tk1 npub k km).stm :=
  ⟨(hWF _ _ _ _ _).1, (hWF _ _ _ _ _).2⟩

theorem verify_tag_zero_iff (tag st stm : List ℕ) :
    romulusm_verify_tag tag st stm = 0 ↔
      ∀ i < 16, (gBlock st).getD i 0 ^^^ (gBlock stm).getD i 0 ^^^
        tag.getD i 0 = 0 := by
  unfold romulusm_verify_tag
  exact lorFold_eq_zero_iff _ 16

theorem roundtrip_verify_zero {I : SkinnyImpl} (hWF : SkinnyWF I)
    (ads ms npub k km : List ℕ) :
    romulusm_verify_tag
      (romulusm_generate_tag
        (romulusm_process_ad I (List.replicate 16 0) (List.replicate 16 0)
          ads ms (1 :: List.replicate 15 0) npub k km).st
        (romulusm_process_ad I (List.replicate 16 0) (List.replicate 16 0)
          ads ms (1 :: List.replicate 15 0) npub k km).stm).1
      (romulusm_process_ad I (List.replicate 16 0) (List.replicate 16 0)
        ads ms (1 :: List.replicate 15 0) npub k km).st
      (romulusm_process_ad I (List.replicate 16 0) (List.replicate 16 0)
        ads ms (1 :: List.replicate 15 0) npub k km).stm = 0 := by
  have hwf := process_ad_wf hWF (List.replicate 16 0) (List.replicate 16 0)
    ads ms (1 :: List.replicate 15 0) npub k km
  rw [verify_tag_zero_iff]
  intro i hi
  have htag : (romulusm_generate_tag
      (romulusm_process_ad I (List.replicate 16 0) (List.replicate 16 0)
        ads ms (1 :: List.replicate 15 0) npub k km).st
      (romulusm_process_ad I (List.replicate 16 0) (List.replicate 16 0)
        ads ms (1 :: List.replicate 15 0) npub k km).stm).1.getD i 0 =
      (gBlock (romulusm_process_ad I (List.replicate 16 0)
        (List.replicate 16 0) ads ms (1 :: List.replicate 15 0) npub k
          km).st).getD i 0 ^^^
      (gBlock (romulusm_process_ad I (List.replicate 16 0)
        (List.replicate 16 0) ads ms (1 :: List.replicate 15 0) npub k
          km).stm).getD i 0 := by
    show (xorBytes _ _).getD i 0 = _
    exact xorBytes_getD (by rw [(block16_gBlock hwf.1).1]; omega)
      (by rw [(block16_gBlock hwf.2).1]; omega)
  rw [htag, Nat.xor_self]

/-- The tag produced by `romulusm_generate_tag` is a well-formed 16-byte
block. -/
theorem generate_tag_block16 {st stm : List ℕ} (hst : Block16 st)
    (hstm : Block16 stm) : Block16 (romulusm_generate_tag st stm).1 :=
  block16_xorBytes (block16_gBlock hst) (block16_gBlock hstm)

theorem process_msg_out_length {I : SkinnyImpl} (hWF : SkinnyWF I)
    (mode : ℕ) (inBuf : List ℕ) (inlen : ℕ) (st stm tk1 rtk rtkm : List ℕ) :
    (romulusm_process_msg I mode inBuf inlen st stm tk1 rtk rtkm).out.length =
      min inlen inBuf.length := by
  unfold romulusm_process_msg
  by_cases h0 : inlen = 0
  · simp [h0]
  · rw [if_neg h0]
    rw [msg_loop_out_length I hWF mode rtk rtkm (inBuf.take inlen).length _ _
      _ _ rfl]
    simp [min_comm]

/-! ## Claim theorems -/

/-- The Romulus-M half of the C1 round-trip property: decrypting the
`(ciphertext, tag)` output of `crypto_aead_encrypt_shared` under the same
key shares, nonce and associated data returns 0 and writes back exactly
the original message.  The absent masked-cipher and tweakey-schedule
kernels are universally quantified, constrained by the specification's
masking-correctness contract `MaskCorrect` and well-formedness
`SkinnyWF`.  The Romulus-T half of the claim is settled by no theorem:
the T core functions (`romulust_kdf`, `romulust_process_msg`,
`romulust_generate_tag`) are extern and absent from the sources, and the
T wrappers pass the nonce asymmetrically (encryption hands the
still-masked share to them, decryption unmasks it in place first), so
the T round trip is not determined by the sources either way. -/
theorem C1_roundtrip_m (I : SkinnyImpl)
    (cipher : List ℕ → List ℕ → List ℕ → List ℕ → List ℕ)
    (hmc : MaskCorrect I cipher) (hWF : SkinnyWF I)
    (ms ads npub k km msInit : List ℕ) (mlenInit : ℕ) (hms : IsBytes ms) :
    crypto_aead_decrypt_shared_m I
        (crypto_aead_encrypt_shared_m I ms ads npub k km).2
        (crypto_aead_encrypt_shared_m I ms ads npub k km).1
        ads npub k km msInit mlenInit =
      (0, ms ++ msInit.drop ms.length, ms.length) := by
  have hado := process_ad_wf hWF (List.replicate 16 0) (List.replicate 16 0)
    ads ms (1 :: List.replicate 15 0) npub k km
  set ado := romulusm_process_ad I (List.replicate 16 0)
    (List.replicate 16 0) ads ms (1 :: List.replicate 15 0) npub k km
    with hado_def
  set tg := romulusm_generate_tag ado.st ado.stm with htg_def
  set pmE := romulusm_process_msg I 0 ms ms.length tg.2.1 tg.2.2 ado.tk1
    ado.rtk ado.rtkm with hpmE_def
  have htagB : Block16 tg.1 := generate_tag_block16 hado.1 hado.2
  have hpmElen : pmE.out.length = ms.length := by
    rw [hpmE_def, process_msg_out_length hWF]
    omega
  have henc : crypto_aead_encrypt_shared_m I ms ads npub k km =
      (ms.length + 16, pmE.out ++ tg.1) := rfl
  rw [henc]
  show crypto_aead_decrypt_shared_m I (pmE.out ++ tg.1) (ms.length + 16)
    ads npub k km msInit mlenInit = _
  unfold crypto_aead_decrypt_shared_m
  rw [if_neg (by omega : ¬ms.length + 16 < 16)]
  simp only [Nat.add_sub_cancel, romulusm_init, tk_schedule_23]
  have hrtk : ado.rtk = I.lfsrPerm23 npub k := by
    rw [hado_def]; exact (process_ad_rtk I _ _ _ _ _ _ _ _).1
  have hrtkm : ado.rtkm = I.lfsrPerm3m km := by
    rw [hado_def]; exact (process_ad_rtk I _ _ _ _ _ _ _ _).2
  set pmD := romulusm_process_msg I 1 (pmE.out ++ tg.1) ms.length
    (List.replicate 16 0) (List.replicate 16 0) (1 :: List.replicate 15 0)
    (I.lfsrPerm23 npub k) (I.lfsrPerm3m km) with hpmD_def
  have hpmDout : pmD.out = ms := by
    rw [hpmD_def]
    unfold romulusm_process_msg
    have hsta : ((List.range 16).map fun i =>
        ((pmE.out ++ tg.1).getD (ms.length + i) 0 ^^^
          (List.replicate 16 0).getD i 0) % 256) = tg.1 := by
      have hcong : ∀ i ∈ List.range 16,
          ((pmE.out ++ tg.1).getD (ms.length + i) 0 ^^^
            (List.replicate 16 0).getD i 0) % 256 = tg.1.getD i 0 := by
        intro i hi
        rw [List.mem_range] at hi
        rw [getD_replicate_zero, Nat.xor_zero, ← hpmElen,
          append_getD_right]
        apply Nat.mod_eq_of_lt
        rw [List.getD_eq_getElem _ _ (by rw [htagB.1]; omega)]
        exact htagB.2 _ (List.getElem_mem _)
      rw [List.map_congr_left hcong, show (16 : ℕ) = tg.1.length from
        htagB.1.symm, range_map_getD]
    rw [hsta]
    by_cases h0 : ms.length = 0
    · rw [if_pos h0]
      exact (List.length_eq_zero.mp h0).symm
    · rw [if_neg h0]
      rw [List.take_left' hpmElen]
      have hpmEout : pmE.out = (romulusm_msg_loop I 0 ado.rtk ado.rtkm ms
          tg.2.1 tg.2.2
          (SET_DOMAIN (1 :: List.replicate 15 0) 0x24)).out := by
        rw [hpmE_def]
        unfold romulusm_process_msg
        rw [if_neg h0, List.take_length]
        simp
      rw [hpmEout, hrtk, hrtkm]
      have hf : ∀ tk1 a b c d : List ℕ, xorBytes a b = xorBytes c d →
          xorBytes (I.skinny a b (I.lfsrPerm23 npub k) (I.lfsrPerm3m km)
              (tk_schedule_1 I tk1)).1
            (I.skinny a b (I.lfsrPerm23 npub k) (I.lfsrPerm3m km)
              (tk_schedule_1 I tk1)).2 =
          xorBytes (I.skinny c d (I.lfsrPerm23 npub k) (I.lfsrPerm3m km)
              (tk_schedule_1 I tk1)).1
            (I.skinny c d (I.lfsrPerm23 npub k) (I.lfsrPerm3m km)
              (tk_schedule_1 I tk1)).2 := by
        intro tk1 a b c d hxor
        simp only [tk_schedule_1]
        rw [hmc a b tk1 npub k km, hmc c d tk1 npub k km, hxor]
      have hinv : xorBytes tg.2.1 tg.2.2 =
          xorBytes tg.1 (List.replicate 16 0) := by
        rw [xorBytes_zero_right (by rw [htagB.1])]
        rfl
      exact msg_loop_inv I (I.lfsrPerm23 npub k) (I.lfsrPerm3m km) hWF hf
        ms.length ms tg.2.1 tg.2.2 tg.1 (List.replicate 16 0)
        (SET_DOMAIN (1 :: List.replicate 15 0) 0x24) rfl hms hinv
  rw [hpmDout]
  rw [List.drop_left' hpmElen]
  rw [show romulusm_process_ad I (List.replicate 16 0) (List.replicate 16 0)
      ads ms (1 :: List.replicate 15 0) npub k km = ado from hado_def.symm]
  rw [show romulusm_verify_tag tg.1 ado.st ado.stm = 0 from by
    rw [htg_def, hado_def]
    exact roundtrip_verify_zero hWF ads ms npub k km]
  rfl

/-- C1 witness: the round-trip theorem applied to the concrete kernel
`skinnyZ` (which satisfies the contract with `cipherZ`) on a 3-byte
message and 2-byte AD. -/
theorem C1_roundtrip_m_witness :
    IsBytes [1, 2, 3] ∧
    crypto_aead_decrypt_shared_m skinnyZ
        (crypto_aead_encrypt_shared_m skinnyZ [1, 2, 3] [7, 7]
          (List.replicate 16 0) (List.replicate 16 0)
          (List.replicate 16 0)).2
        (crypto_aead_encrypt_shared_m skinnyZ [1, 2, 3] [7, 7]
          (List.replicate 16 0) (List.replicate 16 0)
          (List.replicate 16 0)).1
        [7, 7] (List.replicate 16 0) (List.replicate 16 0)
        (List.replicate 16 0) [9, 9, 9, 9] 5 =
      (0, [1, 2, 3] ++ [9, 9, 9, 9].drop [1, 2, 3].length,
        [1, 2, 3].length) :=
  ⟨by decide,
    C1_roundtrip_m skinnyZ cipherZ
      (by
        intro a b tk1 tk2 k km
        show xorBytes (List.replicate 16 0) (List.replicate 16 0) =
          List.replicate 16 0
        decide)
      (by
        intro a b r rm r1
        show Block16 (List.replicate 16 0) ∧ Block16 (List.replicate 16 0)
        decide)
      [1, 2, 3] [7, 7] (List.replicate 16 0) (List.replicate 16 0)
      (List.replicate 16 0) [9, 9, 9, 9] 5 (by decide)⟩

theorem list_eq_iff_getD {a b : List ℕ} (ha : a.length = 16)
    (hb : b.length = 16) : a = b ↔ ∀ i < 16, a.getD i 0 = b.getD i 0 := by
  constructor
  · intro h i _
    rw [h]
  · intro h
    apply List.ext_getElem (by omega)
    intro i h1 h2
    have hg := h i (by omega)
    rwa [List.getD_eq_getElem _ _ h1, List.getD_eq_getElem _ _ h2] at hg

/-- C4.  Tag verification for both the N and the M variant: the functions
apply G to both shares, accumulate the XOR difference with the supplied
tag over all 16 bytes into one OR accumulator (the definitions are that
fold, with no per-byte branch), and return 0 exactly when the recomputed
unmasked tag (the output of the corresponding `generate_tag`) equals the
supplied tag byte for byte. -/
theorem C4_verify_tag_iff (tag st stm : List ℕ) (htag : tag.length = 16)
    (hst : st.length = 16) (hstm : stm.length = 16) :
    (romulusn_verify_tag tag st stm = 0 ↔
      (romulusn_generate_tag st stm).1 = tag) ∧
    (romulusm_verify_tag tag st stm = 0 ↔
      (romulusm_generate_tag st stm).1 = tag) := by
  have hg1 : (gBlock st).length = 16 := by rw [gBlock_length, hst]
  have hg2 : (gBlock stm).length = 16 := by rw [gBlock_length, hstm]
  have hx : (xorBytes (gBlock st) (gBlock stm)).length = 16 := by
    rw [xorBytes_length, hg1, hg2]; simp
  have key : ((List.range 16).foldl
      (fun acc i => acc ||| ((gBlock st).getD i 0 ^^^ (gBlock stm).getD i 0
        ^^^ tag.getD i 0)) 0 = 0) ↔
      xorBytes (gBlock st) (gBlock stm) = tag := by
    rw [lorFold_eq_zero_iff, list_eq_iff_getD hx htag]
    constructor
    · intro h i hi
      rw [xorBytes_getD (by omega) (by omega)]
      exact Nat.xor_eq_zero.mp (h i hi)
    · intro h i hi
      have hg := h i hi
      rw [xorBytes_getD (by omega) (by omega)] at hg
      exact Nat.xor_eq_zero.mpr hg
  exact ⟨key, key⟩

/-- C4 witness: equal tags verify as 0, a differing tag verifies as
non-zero, at concrete inputs. -/
theorem C4_verify_tag_iff_witness :
    ((List.replicate 16 (0 : ℕ)).length = 16 ∧
      romulusn_verify_tag (romulusn_generate_tag (List.replicate 16 0)
        (List.replicate 16 0)).1 (List.replicate 16 0)
        (List.replicate 16 0) = 0) ∧
    romulusm_verify_tag (List.replicate 16 1) (List.replicate 16 0)
      (List.replicate 16 0) ≠ 0 := by
  constructor
  · refine ⟨by decide, ?_⟩
    have h := (C4_verify_tag_iff (romulusn_generate_tag (List.replicate 16 0)
      (List.replicate 16 0)).1 (List.replicate 16 0) (List.replicate 16 0)
      (by decide) (by decide) (by decide)).1
    exact h.mpr rfl
  · intro hc
    have h := (C4_verify_tag_iff (List.replicate 16 1) (List.replicate 16 0)
      (List.replicate 16 0) (by decide) (by decide) (by decide)).2
    have := h.mp hc
    revert this
    decide

/-- C5.  The RHO forward transform: on state share `x`, mask share `x_m`
and 16-byte input block `z`, the produced output block is
`G(x) XOR z XOR G(x_m)`, the first state share becomes `x XOR z`, and the
mask share is left unchanged. -/
theorem C5_RHO_forward {x xm z : List ℕ} (hx : Block16 x) (hxm : Block16 xm)
    (hz : Block16 z) :
    (RHO x xm z).2.2 = xorBytes (xorBytes (gBlock x) z) (gBlock xm) ∧
    (RHO x xm z).1 = xorBytes x z ∧
    (RHO x xm z).2.1 = xm := by
  rw [RHO_spec hx hxm hz]
  exact ⟨xorBytes_comm _ _, rfl, rfl⟩

/-- C5 witness: the RHO characterization at a concrete state/mask/block. -/
theorem C5_RHO_forward_witness :
    Block16 (List.replicate 16 3) ∧ Block16 (List.replicate 16 5) ∧
    Block16 (List.replicate 16 7) ∧
    ((RHO (List.replicate 16 3) (List.replicate 16 5)
        (List.replicate 16 7)).2.2 =
      xorBytes (xorBytes (gBlock (List.replicate 16 3))
        (List.replicate 16 7)) (gBlock (List.replicate 16 5)) ∧
    (RHO (List.replicate 16 3) (List.replicate 16 5)
        (List.replicate 16 7)).1 =
      xorBytes (List.replicate 16 3) (List.replicate 16 7) ∧
    (RHO (List.replicate 16 3) (List.replicate 16 5)
        (List.replicate 16 7)).2.1 = List.replicate 16 5) :=
  ⟨by decide, by decide, by decide,
    C5_RHO_forward (by decide) (by decide) (by decide)⟩

/-- C3.  Both shared-API decryption wrappers: a ciphertext shorter than
the 16-byte tag makes the call return `-1` immediately, leaving the
plaintext buffer and `*mlen` untouched; for `clen >= 16` the call sets
`*mlen = clen - 16`. -/
theorem C3_length_check (I : SkinnyImpl) (T : RomulusTImpl) (cs : List ℕ)
    (clen : ℕ) (ads npub npubm k km msInit : List ℕ) (adlen mlenInit : ℕ) :
    (clen < 16 →
      crypto_aead_decrypt_shared_m I cs clen ads npub k km msInit mlenInit =
        (-1, msInit, mlenInit) ∧
      crypto_aead_decrypt_shared_t T cs clen ads adlen npub npubm k km msInit
        mlenInit = (-1, msInit, mlenInit)) ∧
    (16 ≤ clen →
      (crypto_aead_decrypt_shared_m I cs clen ads npub k km msInit
          mlenInit).2.2 = clen - 16 ∧
      (crypto_aead_decrypt_shared_t T cs clen ads adlen npub npubm k km msInit
          mlenInit).2.2 = clen - 16) := by
  constructor
  · intro h
    constructor
    · unfold crypto_aead_decrypt_shared_m
      rw [if_pos h]
    · unfold crypto_aead_decrypt_shared_t
      rw [if_pos h]
  · intro h
    constructor
    · unfold crypto_aead_decrypt_shared_m
      rw [if_neg (by omega)]
    · unfold crypto_aead_decrypt_shared_t
      rw [if_neg (by omega)]
      simp only []
      split <;> rfl

/-- C3 witness: the length check applied at `clen = 3` (both wrappers
refuse and leave the outputs alone) and at `clen = 20` (both set
`*mlen = 4`). -/
theorem C3_length_check_witness :
    ((3 : ℕ) < 16 ∧
      crypto_aead_decrypt_shared_m skinnyZ [1, 2, 3] 3 []
        (List.replicate 16 0) (List.replicate 16 0) (List.replicate 16 0)
        [4] 9 = (-1, [4], 9)) ∧
    ((16 : ℕ) ≤ 20 ∧
      (crypto_aead_decrypt_shared_t romulusTZ (List.replicate 20 1) 20 [] 0
        (List.replicate 16 0) (List.replicate 16 0) (List.replicate 16 0)
        (List.replicate 16 0) [4] 9).2.2 = 20 - 16) :=
  ⟨⟨by decide,
    ((C3_length_check skinnyZ romulusTZ [1, 2, 3] 3 [] (List.replicate 16 0)
      (List.replicate 16 0) (List.replicate 16 0) (List.replicate 16 0)
      [4] 0 9).1 (by decide)).1⟩,
    ⟨by decide,
    ((C3_length_check skinnyZ romulusTZ (List.replicate 20 1) 20 []
      (List.replicate 16 0) (List.replicate 16 0) (List.replicate 16 0)
      (List.replicate 16 0) [4] 0 9).2 (by decide)).2⟩⟩

/-- C2 counterexample: a Romulus-M decryption call whose tag verification
fails (non-zero return value) nevertheless overwrites the plaintext
output buffer with the recovered plaintext, so the claim that no
plaintext byte is written on the failure path is false for
`crypto_aead_decrypt_shared` of the M variant. -/
theorem C2_counterexample :
    (crypto_aead_decrypt_shared_m skinnyZ (1 :: List.replicate 16 1) 17 []
      (List.replicate 16 0) (List.replicate 16 0) (List.replicate 16 0)
      [0] 0).1 ≠ 0 ∧
    (crypto_aead_decrypt_shared_m skinnyZ (1 :: List.replicate 16 1) 17 []
      (List.replicate 16 0) (List.replicate 16 0) (List.replicate 16 0)
      [0] 0).2.1 ≠ [0] := by
  decide

/-- C2 (amended).  For the Romulus-T wrapper, a recomputed tag that
differs from the supplied tag in any of the 16 bytes makes the call
return `-1` with the plaintext buffer untouched (plaintext is computed
only after a successful comparison).  For the Romulus-M wrapper a
mismatch between the recomputed unmasked tag and the supplied tag also
forces a non-zero return value — the OR-accumulator of
`romulusm_verify_tag`, not `-1` — but the plaintext buffer is always
overwritten with the recovered message stream before the tag is even
recomputed; only that non-zero return value reports the failure. -/
theorem C2_auth_failure_amended :
    (∀ (T : RomulusTImpl) (cs : List ℕ) (clen : ℕ)
      (ads npub npubm k km msInit : List ℕ) (adlen mlenInit : ℕ),
      16 ≤ clen →
      (∃ i, i < 16 ∧
        (T.genTag (List.replicate 16 0) ads adlen cs (clen - 16)
          (xorBytes npub npubm) npubm k km).getD i 0 ≠
          cs.getD (clen - 16 + i) 0) →
      crypto_aead_decrypt_shared_t T cs clen ads adlen npub npubm k km msInit
        mlenInit = (-1, msInit, clen - 16)) ∧
    (∀ (I : SkinnyImpl) (cs : List ℕ) (clen : ℕ)
      (ads npub k km msInit : List ℕ) (mlenInit : ℕ),
      16 ≤ clen →
      (∃ i, i < 16 ∧
        (gBlock (romulusm_process_ad I (List.replicate 16 0)
            (List.replicate 16 0) ads
            (romulusm_process_msg I 1 cs (clen - 16) (List.replicate 16 0)
              (List.replicate 16 0) (1 :: List.replicate 15 0)
              (I.lfsrPerm23 npub k) (I.lfsrPerm3m km)).out
            (1 :: List.replicate 15 0) npub k km).st).getD i 0 ^^^
          (gBlock (romulusm_process_ad I (List.replicate 16 0)
            (List.replicate 16 0) ads
            (romulusm_process_msg I 1 cs (clen - 16) (List.replicate 16 0)
              (List.replicate 16 0) (1 :: List.replicate 15 0)
              (I.lfsrPerm23 npub k) (I.lfsrPerm3m km)).out
            (1 :: List.replicate 15 0) npub k km).stm).getD i 0 ^^^
          (cs.drop (clen - 16)).getD i 0 ≠ 0) →
      (crypto_aead_decrypt_shared_m I cs clen ads npub k km msInit
          mlenInit).1 ≠ 0) ∧
    (∀ (I : SkinnyImpl) (cs : List ℕ) (clen : ℕ)
      (ads npub k km msInit : List ℕ) (mlenInit : ℕ),
      16 ≤ clen →
      (crypto_aead_decrypt_shared_m I cs clen ads npub k km msInit
          mlenInit).2.1 =
        (romulusm_process_msg I 1 cs (clen - 16) (List.replicate 16 0)
          (List.replicate 16 0) (1 :: List.replicate 15 0)
          (I.lfsrPerm23 npub k) (I.lfsrPerm3m km)).out ++
          msInit.drop (clen - 16)) := by
  refine ⟨?_, ?_, ?_⟩
  · intro T cs clen ads npub npubm k km msInit adlen mlenInit hclen hdiff
    unfold crypto_aead_decrypt_shared_t
    rw [if_neg (by omega)]
    simp only []
    rw [if_pos]
    obtain ⟨i, hi, hne⟩ := hdiff
    intro hzero
    rw [lorFold_eq_zero_iff] at hzero
    exact hne (Nat.xor_eq_zero.mp (hzero i hi))
  · intro I cs clen ads npub k km msInit mlenInit hclen hdiff
    unfold crypto_aead_decrypt_shared_m
    rw [if_neg (by omega)]
    show ((romulusm_verify_tag (cs.drop (clen - 16))
        (romulusm_process_ad I (List.replicate 16 0) (List.replicate 16 0)
          ads
          (romulusm_process_msg I 1 cs (clen - 16) (List.replicate 16 0)
            (List.replicate 16 0) (1 :: List.replicate 15 0)
            (I.lfsrPerm23 npub k) (I.lfsrPerm3m km)).out
          (1 :: List.replicate 15 0) npub k km).st
        (romulusm_process_ad I (List.replicate 16 0) (List.replicate 16 0)
          ads
          (romulusm_process_msg I 1 cs (clen - 16) (List.replicate 16 0)
            (List.replicate 16 0) (1 :: List.replicate 15 0)
            (I.lfsrPerm23 npub k) (I.lfsrPerm3m km)).out
          (1 :: List.replicate 15 0) npub k km).stm : ℕ) : ℤ) ≠ 0
    intro h
    have hzn := Int.natCast_eq_zero.mp h
    rw [verify_tag_zero_iff] at hzn
    obtain ⟨i, hi, hne⟩ := hdiff
    exact hne (hzn i hi)
  · intro I cs clen ads npub k km msInit mlenInit hclen
    unfold crypto_aead_decrypt_shared_m
    rw [if_neg (by omega)]
    rfl

/-- C2 witness: the amended statement applied to concrete kernels; the
Romulus-T part on a 17-byte ciphertext whose supplied tag (sixteen 1
bytes) differs from the recomputed all-zero tag, and the two Romulus-M
parts (non-zero return value, buffer overwritten with the recovered
stream) on the same shape of call. -/
theorem C2_auth_failure_amended_witness :
    ((16 : ℕ) ≤ 17 ∧
      crypto_aead_decrypt_shared_t romulusTZ (List.replicate 17 1) 17 [] 0
        (List.replicate 16 0) (List.replicate 16 0) (List.replicate 16 0)
        (List.replicate 16 0) [5] 42 = (-1, [5], 1)) ∧
    (crypto_aead_decrypt_shared_m skinnyZ (List.replicate 17 1) 17 []
        (List.replicate 16 0) (List.replicate 16 0) (List.replicate 16 0)
        [5] 42).1 ≠ 0 ∧
    (crypto_aead_decrypt_shared_m skinnyZ (List.replicate 17 1) 17 []
        (List.replicate 16 0) (List.replicate 16 0) (List.replicate 16 0)
        [5] 42).2.1 =
      (romulusm_process_msg skinnyZ 1 (List.replicate 17 1) 1
        (List.replicate 16 0) (List.replicate 16 0)
        (1 :: List.replicate 15 0)
        (skinnyZ.lfsrPerm23 (List.replicate 16 0) (List.replicate 16 0))
        (skinnyZ.lfsrPerm3m (List.replicate 16 0))).out ++ [5].drop 1 :=
  ⟨⟨by decide,
    C2_auth_failure_amended.1 romulusTZ (List.replicate 17 1) 17 []
      (List.replicate 16 0) (List.replicate 16 0) (List.replicate 16 0)
      (List.replicate 16 0) [5] 0 42 (by decide)
      ⟨0, by decide, by decide⟩⟩,
    C2_auth_failure_amended.2.1 skinnyZ (List.replicate 17 1) 17 []
      (List.replicate 16 0) (List.replicate 16 0) (List.replicate 16 0)
      [5] 42 (by decide) ⟨0, by decide, by decide⟩,
    C2_auth_failure_amended.2.2 skinnyZ (List.replicate 17 1) 17 []
      (List.replicate 16 0) (List.replicate 16 0) (List.replicate 16 0)
      [5] 42 (by decide)⟩

/-- C6 counterexample: the first output share of the `secand` gadget is
not `(NOT(x_other) AND y_same) XOR (x_same AND y_same)`: at the all-zero
input the gadget produces `0xffffffff` (from `orn`) while the claimed
formula gives 0. -/
theorem C6_secand_counterexample :
    (secand 0 0 0 0).1 ≠ (secand_claim_formula 0 0 0 0).1 ∧
    (secand 0 0 0 0).1 = 0xffffffff ∧
    (secand_claim_formula 0 0 0 0).1 = 0 := by
  decide

/-- C6 (amended).  The `secand` gadget computes output share 1 as
`(x1 OR NOT y2) XOR (x1 AND y1)` and output share 2 as
`(x2 AND y1) XOR (x2 OR NOT y2)`, and it is correct with respect to the
unmasked AND: for 32-bit inputs the XOR of the two output shares equals
`(x1 XOR x2) AND (y1 XOR y2)`. -/
theorem C6_secand_amended (x1 x2 y1 y2 : ℕ) (h1 : x1 < 2 ^ 32)
    (h2 : x2 < 2 ^ 32) (h3 : y1 < 2 ^ 32) (h4 : y2 < 2 ^ 32) :
    (secand x1 x2 y1 y2).1 ^^^ (secand x1 x2 y1 y2).2 =
        (x1 ^^^ x2) &&& (y1 ^^^ y2) ∧
      (secand x1 x2 y1 y2).1 = (x1 ||| (mask32 ^^^ y2)) ^^^ (x1 &&& y1) ∧
      (secand x1 x2 y1 y2).2 = (x2 &&& y1) ^^^ (x2 ||| (mask32 ^^^ y2)) := by
  refine ⟨?_, rfl, rfl⟩
  unfold secand mask32
  simp only []
  apply Nat.eq_of_testBit_eq
  intro i
  rcases lt_or_ge i 32 with hi | hi
  · have hm : (0xffffffff : ℕ).testBit i = true := by
      rw [show (0xffffffff : ℕ) = 2 ^ 32 - 1 from by norm_num,
        Nat.testBit_two_pow_sub_one]
      simp [hi]
    simp only [Nat.testBit_xor, Nat.testBit_or, Nat.testBit_and, hm]
    cases x1.testBit i <;> cases x2.testBit i <;>
      cases y1.testBit i <;> cases y2.testBit i <;> rfl
  · have hb : ∀ z : ℕ, z < 2 ^ 32 → z.testBit i = false := fun z hz =>
      Nat.testBit_lt_two_pow
        (lt_of_lt_of_le hz (Nat.pow_le_pow_right (by omega) hi))
    have hm : (0xffffffff : ℕ).testBit i = false := hb _ (by norm_num)
    simp only [Nat.testBit_xor, Nat.testBit_or, Nat.testBit_and, hm,
      hb x1 h1, hb x2 h2, hb y1 h3, hb y2 h4]
    rfl

/-- C6 witness: the amended gadget characterization at a concrete 32-bit
input. -/
theorem C6_secand_amended_witness :
    ((0x12345678 : ℕ) < 2 ^ 32 ∧ (0x9abcdef0 : ℕ) < 2 ^ 32 ∧
      (0x0f0f0f0f : ℕ) < 2 ^ 32 ∧ (0x33cc55aa : ℕ) < 2 ^ 32) ∧
    (secand 0x12345678 0x9abcdef0 0x0f0f0f0f 0x33cc55aa).1 ^^^
        (secand 0x12345678 0x9abcdef0 0x0f0f0f0f 0x33cc55aa).2 =
      (0x12345678 ^^^ 0x9abcdef0) &&& (0x0f0f0f0f ^^^ 0x33cc55aa) :=
  ⟨⟨by decide, by decide, by decide, by decide⟩,
    (C6_secand_amended 0x12345678 0x9abcdef0 0x0f0f0f0f 0x33cc55aa
      (by decide) (by decide) (by decide) (by decide)).1⟩

/-- C7 counterexample: `adlen = 0` (the claim's absent/empty-AD case) and
`adlen = 1` (a trailing partial single block) are structurally distinct
cases of the claim's classification, yet `final_ad_domain` returns the
same domain byte for both, so structurally distinct inputs do collide. -/
theorem C7_domain_counterexample :
    specAdCase 0 ≠ specAdCase 1 ∧ specMsgCase 0 = specMsgCase 0 ∧
    final_ad_domain 0 0 = final_ad_domain 1 0 := by
  decide

theorem final_ad_domain_eq (a m : ℕ) :
    final_ad_domain a m = adDomainByte a ^^^ msgDomainByte m := by
  unfold final_ad_domain adDomainByte msgDomainByte
  norm_num
  split_ifs <;> rfl

theorem adDomainByte_cases (a : ℕ) :
    adDomainByte a = 0x02 ∨ adDomainByte a = 0x08 ∨ adDomainByte a = 0x0A ∨
      adDomainByte a = 0 := by
  unfold adDomainByte
  split_ifs <;> simp

theorem msgDomainByte_cases (m : ℕ) :
    msgDomainByte m = 0x01 ∨ msgDomainByte m = 0x04 ∨
      msgDomainByte m = 0x05 ∨ msgDomainByte m = 0 := by
  unfold msgDomainByte
  split_ifs <;> simp

/-- C7 (amended).  `final_ad_domain` is exactly the XOR of an AD
contribution and a message contribution, and two `(adlen, mlen)` pairs
receive the same domain byte exactly when both contributions agree; the
AD contribution distinguishes the cases {even full double blocks,
odd full blocks, trailing partial double block} but maps the absent/empty
AD case and the trailing partial single block case to the same value 0x02
(and likewise for the message lengths with values 0x04, 0, 0x05, 0x01). -/
theorem C7_domain_amended (a a2 m m2 : ℕ) :
    final_ad_domain a m = final_ad_domain a2 m2 ↔
      (adDomainByte a = adDomainByte a2 ∧
        msgDomainByte m = msgDomainByte m2) := by
  rw [final_ad_domain_eq, final_ad_domain_eq]
  rcases adDomainByte_cases a with h1 | h1 | h1 | h1 <;>
    rcases adDomainByte_cases a2 with h2 | h2 | h2 | h2 <;>
    rcases msgDomainByte_cases m with h3 | h3 | h3 | h3 <;>
    rcases msgDomainByte_cases m2 with h4 | h4 | h4 | h4 <;>
    rw [h1, h2, h3, h4] <;> decide

theorem and_ff_eq_mod (x : ℕ) : x &&& 0xff = x % 2 ^ 8 := by
  have := Nat.and_pow_two_sub_one_eq_mod x 8
  norm_num at this ⊢
  exact this

theorem and_shift_mask (x m k : ℕ) :
    x &&& m <<< k = ((x >>> k) &&& m) <<< k := by
  apply Nat.eq_of_testBit_eq
  intro i
  simp only [Nat.testBit_and, Nat.testBit_shiftLeft, Nat.testBit_shiftRight]
  rcases le_or_lt k i with h | h
  · have e : k + (i - k) = i := by omega
    simp [h, e, Bool.and_comm, Bool.and_left_comm, Bool.and_assoc]
  · have e : ¬ k ≤ i := by omega
    simp [e]

theorem even_lor_le_one {a b : ℕ} (ha : a % 2 = 0) (hb : b ≤ 1) :
    a ||| b = a + b := by
  apply lor_add_of_and_eq_zero
  interval_cases b
  · exact Nat.and_zero a
  · rw [Nat.and_one_is_mod]
    exact ha

theorem byte_sum_of_word (w : ℕ) :
    (w &&& 0xff) + 2 ^ 8 * ((w >>> 8) &&& 0xff) +
      2 ^ 16 * ((w >>> 16) &&& 0xff) + 2 ^ 24 * ((w >>> 24) &&& 0xff) =
      w % 2 ^ 32 := by
  rw [and_ff_eq_mod, and_ff_eq_mod, and_ff_eq_mod, and_ff_eq_mod,
    Nat.shiftRight_eq_div_pow, Nat.shiftRight_eq_div_pow,
    Nat.shiftRight_eq_div_pow]
  omega

theorem low3_sum_of_word (w : ℕ) :
    (w &&& 0xff) + 2 ^ 8 * ((w >>> 8) &&& 0xff) +
      2 ^ 16 * ((w >>> 16) &&& 0xff) = w % 2 ^ 24 := by
  rw [and_ff_eq_mod, and_ff_eq_mod, and_ff_eq_mod,
    Nat.shiftRight_eq_div_pow, Nat.shiftRight_eq_div_pow]
  omega

theorem ctr56_wordsToBytes (a b : ℕ) (rest : List ℕ) :
    ctr56 (wordsToBytes (a :: b :: rest)) = a % 2 ^ 32 + 2 ^ 32 * (b % 2 ^ 24) := by
  have e : ctr56 (wordsToBytes (a :: b :: rest)) =
      (a &&& 0xff) + 2 ^ 8 * ((a >>> 8) &&& 0xff) +
        2 ^ 16 * ((a >>> 16) &&& 0xff) + 2 ^ 24 * ((a >>> 24) &&& 0xff) +
        2 ^ 32 * (b &&& 0xff) + 2 ^ 40 * ((b >>> 8) &&& 0xff) +
        2 ^ 48 * ((b >>> 16) &&& 0xff) := rfl
  rw [e]
  have h1 := byte_sum_of_word a
  have h2 := low3_sum_of_word b
  omega

theorem w1a_decomp (w0 w1 : ℕ) (h0 : w0 < 2 ^ 32) :
    (w1 <<< 1) &&& 0x00ffffff ||| w0 >>> 31 ||| w1 &&& 0xff000000 =
      (2 * w1) % 2 ^ 24 + w0 / 2 ^ 31 + ((w1 / 2 ^ 24) % 2 ^ 8) * 2 ^ 24 := by
  have e1 : (w1 <<< 1) &&& 0x00ffffff = (2 * w1) % 2 ^ 24 := by
    rw [Nat.shiftLeft_eq, pow_one,
      show (0x00ffffff : ℕ) = 2 ^ 24 - 1 from by norm_num,
      Nat.and_pow_two_sub_one_eq_mod, Nat.mul_comm]
  have e2 : w0 >>> 31 = w0 / 2 ^ 31 := Nat.shiftRight_eq_div_pow w0 31
  have e3 : w1 &&& 0xff000000 = ((w1 / 2 ^ 24) % 2 ^ 8) <<< 24 := by
    rw [show (0xff000000 : ℕ) = 0xff <<< 24 from by decide, and_shift_mask,
      and_ff_eq_mod, Nat.shiftRight_eq_div_pow]
  rw [e1, e2, e3,
    even_lor_le_one (by omega) (by omega : w0 / 2 ^ 31 ≤ 1),
    lor_shift_eq_add (show (2 * w1) % 2 ^ 24 + w0 / 2 ^ 31 < 2 ^ 24 by omega)]

theorem exists_list16 (l : List ℕ) (h : l.length = 16) :
    ∃ b0 b1 b2 b3 b4 b5 b6 b7 b8 b9 b10 b11 b12 b13 b14 b15 : ℕ,
      l = [b0, b1, b2, b3, b4, b5, b6, b7, b8, b9, b10, b11, b12, b13, b14,
        b15] := by
  refine ⟨l.getD 0 0, l.getD 1 0, l.getD 2 0, l.getD 3 0, l.getD 4 0,
    l.getD 5 0, l.getD 6 0, l.getD 7 0, l.getD 8 0, l.getD 9 0, l.getD 10 0,
    l.getD 11 0, l.getD 12 0, l.getD 13 0, l.getD 14 0, l.getD 15 0, ?_⟩
  rw [list_eq_iff_getD h (by rfl)]
  intro i hi
  interval_cases i <;> rfl

theorem UPDATE_CTR_explicit
    (b0 b1 b2 b3 b4 b5 b6 b7 b8 b9 b10 b11 b12 b13 b14 b15 : ℕ) :
    UPDATE_CTR [b0, b1, b2, b3, b4, b5, b6, b7, b8, b9, b10, b11, b12, b13,
        b14, b15] =
      wordsToBytes
        ((if (wordOfBytes b4 b5 b6 b7 >>> 23) &&& 1 = 1 then
            (wordOfBytes b0 b1 b2 b3 <<< 1) % 2 ^ 32 ^^^ 0x95
          else (wordOfBytes b0 b1 b2 b3 <<< 1) % 2 ^ 32) ::
          ((wordOfBytes b4 b5 b6 b7 <<< 1) &&& 0x00ffffff |||
              wordOfBytes b0 b1 b2 b3 >>> 31 |||
              wordOfBytes b4 b5 b6 b7 &&& 0xff000000) ::
          [wordOfBytes b8 b9 b10 b11, wordOfBytes b12 b13 b14 b15]) := rfl

theorem ctr56_explicit (b0 b1 b2 b3 b4 b5 b6 : ℕ) (rest : List ℕ) :
    ctr56 (b0 :: b1 :: b2 :: b3 :: b4 :: b5 :: b6 :: rest) =
      b0 + 2 ^ 8 * b1 + 2 ^ 16 * b2 + 2 ^ 24 * b3 + 2 ^ 32 * b4 +
        2 ^ 40 * b5 + 2 ^ 48 * b6 := rfl

/-- C8 counterexample, both halves of the claim.  Monotonicity: at counter
value 2^55 (byte 6 equal to 0x80, all other counter bytes zero) the LFSR
feedback fires and `UPDATE_CTR` maps the counter to 0x95, which is
smaller, so the counter does not strictly increase on every application.
Reset-only-at-init: `romulusm_process_msg` in encrypt mode re-initializes
TK1 at its entry, so a counter that reached 5 during AD processing is back
at its initial value 1 inside the same call — the reset is not performed
only by the init at the start of a fresh encrypt/decrypt call. -/
theorem C8_counter_counterexample :
    (ctr56 [0, 0, 0, 0, 0, 0, 0x80, 0, 0, 0, 0, 0, 0, 0, 0, 0] = 2 ^ 55 ∧
      ctr56 (UPDATE_CTR [0, 0, 0, 0, 0, 0, 0x80, 0, 0, 0, 0, 0, 0, 0, 0, 0]) =
        0x95 ∧
      ¬ ctr56 [0, 0, 0, 0, 0, 0, 0x80, 0, 0, 0, 0, 0, 0, 0, 0, 0] <
          ctr56 (UPDATE_CTR [0, 0, 0, 0, 0, 0, 0x80, 0, 0, 0, 0, 0, 0, 0, 0,
            0])) ∧
    ctr56 (5 :: List.replicate 15 0) = 5 ∧
      (romulusm_process_msg skinnyZ 0 [9] 1 (List.replicate 16 0)
          (List.replicate 16 0) (5 :: List.replicate 15 0)
          (List.replicate 16 0) (List.replicate 16 0)).tk1 =
        SET_DOMAIN (1 :: List.replicate 15 0) 0x24 ∧
      ctr56 ((romulusm_process_msg skinnyZ 0 [9] 1 (List.replicate 16 0)
          (List.replicate 16 0) (5 :: List.replicate 15 0)
          (List.replicate 16 0) (List.replicate 16 0)).tk1) = 1 := by
  decide

/-- C8 (amended).  On a 16-byte TK1 whose 56-bit counter (bytes 0..6,
little endian) lies in [1, 2^55), `UPDATE_CTR` exactly doubles the counter,
hence strictly increases it; the counter therefore increases monotonically
until the LFSR wraps at 2^55 applications.  Both the M and the N
initialization set the counter to 1, but the init at the start of a call
is not the only reset point: `romulusm_process_msg` in encrypt mode
ignores the TK1 it is handed and behaves exactly as if TK1 had been
freshly re-initialized to 0x01 00..00, so the counter returns to 1
mid-call between AD processing and message processing. -/
theorem C8_counter_amended (tk1 : List ℕ) (hlen : tk1.length = 16)
    (hb : IsBytes tk1) (hlo : 1 ≤ ctr56 tk1) (hhi : ctr56 tk1 < 2 ^ 55) :
    ctr56 (UPDATE_CTR tk1) = 2 * ctr56 tk1 ∧
      ctr56 tk1 < ctr56 (UPDATE_CTR tk1) ∧
      ctr56 romulusm_init.2.2 = 1 ∧ ctr56 romulusn_init.2.2 = 1 ∧
      (∀ (I : SkinnyImpl) (inBuf : List ℕ) (inlen : ℕ)
        (st stm rtk rtkm : List ℕ),
        romulusm_process_msg I 0 inBuf inlen st stm tk1 rtk rtkm =
          romulusm_process_msg I 0 inBuf inlen st stm
            (1 :: List.replicate 15 0) rtk rtkm) := by
  obtain ⟨b0, b1, b2, b3, b4, b5, b6, b7, b8, b9, b10, b11, b12, b13, b14,
    b15, rfl⟩ := exists_list16 tk1 hlen
  have h0 : b0 < 256 := hb _ (by simp)
  have h1 : b1 < 256 := hb _ (by simp)
  have h2 : b2 < 256 := hb _ (by simp)
  have h3 : b3 < 256 := hb _ (by simp)
  have h4 : b4 < 256 := hb _ (by simp)
  have h5 : b5 < 256 := hb _ (by simp)
  have h6 : b6 < 256 := hb _ (by simp)
  have h7 : b7 < 256 := hb _ (by simp)
  rw [ctr56_explicit] at hlo hhi
  have hw0 : wordOfBytes b0 b1 b2 b3 = b0 + b1 * 2 ^ 8 + b2 * 2 ^ 16 +
      b3 * 2 ^ 24 := wordOfBytes_eq_add h0 h1 h2 h3
  have hw1 : wordOfBytes b4 b5 b6 b7 = b4 + b5 * 2 ^ 8 + b6 * 2 ^ 16 +
      b7 * 2 ^ 24 := wordOfBytes_eq_add h4 h5 h6 h7
  have hfb : (wordOfBytes b4 b5 b6 b7 >>> 23) &&& 1 = 0 := by
    rw [Nat.shiftRight_eq_div_pow, Nat.and_one_is_mod, hw1]
    omega
  have hmain : ctr56 (UPDATE_CTR [b0, b1, b2, b3, b4, b5, b6, b7, b8, b9,
      b10, b11, b12, b13, b14, b15]) =
      2 * ctr56 [b0, b1, b2, b3, b4, b5, b6, b7, b8, b9, b10, b11, b12, b13,
        b14, b15] := by
    rw [UPDATE_CTR_explicit, ctr56_wordsToBytes, ctr56_explicit,
      if_neg (by simp [hfb]),
      w1a_decomp (wordOfBytes b0 b1 b2 b3) (wordOfBytes b4 b5 b6 b7)
        (by rw [hw0]; omega),
      Nat.shiftLeft_eq, pow_one, hw0, hw1]
    omega
  refine ⟨hmain, ?_, by decide, by decide, ?_⟩
  · rw [hmain, ctr56_explicit]
    omega
  · intro I inBuf inlen st stm rtk rtkm
    rfl

/-- C8 witness: the amended statement at the freshly initialized counter
value 1, with the process_msg re-initialization conjunct instantiated at a
concrete one-byte encryption. -/
theorem C8_counter_amended_witness :
    ((1 :: List.replicate 15 0 : List ℕ).length = 16 ∧
        IsBytes (1 :: List.replicate 15 0) ∧
        1 ≤ ctr56 (1 :: List.replicate 15 0) ∧
        ctr56 (1 :: List.replicate 15 0) < 2 ^ 55) ∧
      ctr56 (UPDATE_CTR (1 :: List.replicate 15 0)) =
          2 * ctr56 (1 :: List.replicate 15 0) ∧
        ctr56 (1 :: List.replicate 15 0) <
            ctr56 (UPDATE_CTR (1 :: List.replicate 15 0)) ∧
        ctr56 romulusm_init.2.2 = 1 ∧ ctr56 romulusn_init.2.2 = 1 ∧
        romulusm_process_msg skinnyZ 0 [9] 1 (List.replicate 16 0)
            (List.replicate 16 0) (1 :: List.replicate 15 0)
            (List.replicate 16 0) (List.replicate 16 0) =
          romulusm_process_msg skinnyZ 0 [9] 1 (List.replicate 16 0)
            (List.replicate 16 0) (1 :: List.replicate 15 0)
            (List.replicate 16 0) (List.replicate 16 0) := by
  have h := C8_counter_amended (1 :: List.replicate 15 0) (by decide)
    (by decide) (by decide) (by decide)
  exact ⟨⟨by decide, by decide, by decide, by decide⟩, h.1, h.2.1, h.2.2.1,
    h.2.2.2.1, h.2.2.2.2 skinnyZ [9] 1 (List.replicate 16 0)
      (List.replicate 16 0) (List.replicate 16 0) (List.replicate 16 0)⟩

/-- C9.  On every 16-byte TK1, `UPDATE_CTR` keeps the length at 16 and
leaves bytes 7..15 — in particular the domain-separation byte tk1[7] —
unchanged: only the 56-bit counter in bytes 0..6 is rewritten. -/
theorem C9_update_ctr_frame (tk1 : List ℕ) (hlen : tk1.length = 16)
    (hb : IsBytes tk1) :
    (UPDATE_CTR tk1).length = 16 ∧ (UPDATE_CTR tk1).drop 7 = tk1.drop 7 := by
  obtain ⟨b0, b1, b2, b3, b4, b5, b6, b7, b8, b9, b10, b11, b12, b13, b14,
    b15, rfl⟩ := exists_list16 tk1 hlen
  have h0 : b0 < 256 := hb _ (by simp)
  have h1 : b1 < 256 := hb _ (by simp)
  have h2 : b2 < 256 := hb _ (by simp)
  have h3 : b3 < 256 := hb _ (by simp)
  have h4 : b4 < 256 := hb _ (by simp)
  have h5 : b5 < 256 := hb _ (by simp)
  have h6 : b6 < 256 := hb _ (by simp)
  have h7 : b7 < 256 := hb _ (by simp)
  have h8 : b8 < 256 := hb _ (by simp)
  have h9 : b9 < 256 := hb _ (by simp)
  have h10 : b10 < 256 := hb _ (by simp)
  have h11 : b11 < 256 := hb _ (by simp)
  have h12 : b12 < 256 := hb _ (by simp)
  have h13 : b13 < 256 := hb _ (by simp)
  have h14 : b14 < 256 := hb _ (by simp)
  have h15 : b15 < 256 := hb _ (by simp)
  have hw0lt : wordOfBytes b0 b1 b2 b3 < 2 ^ 32 := by
    rw [wordOfBytes_eq_add h0 h1 h2 h3]; omega
  have e7 : (((wordOfBytes b4 b5 b6 b7 <<< 1) &&& 0x00ffffff |||
      wordOfBytes b0 b1 b2 b3 >>> 31 |||
      wordOfBytes b4 b5 b6 b7 &&& 0xff000000) >>> 24) &&& 0xff = b7 := by
    rw [w1a_decomp (wordOfBytes b0 b1 b2 b3) (wordOfBytes b4 b5 b6 b7) hw0lt,
      and_ff_eq_mod, Nat.shiftRight_eq_div_pow,
      wordOfBytes_eq_add h0 h1 h2 h3, wordOfBytes_eq_add h4 h5 h6 h7]
    omega
  have e2 : bytesOfWord (wordOfBytes b8 b9 b10 b11) = [b8, b9, b10, b11] :=
    bytesOfWord_wordOfBytes h8 h9 h10 h11
  have e3 : bytesOfWord (wordOfBytes b12 b13 b14 b15) =
      [b12, b13, b14, b15] := bytesOfWord_wordOfBytes h12 h13 h14 h15
  constructor
  · rw [UPDATE_CTR_explicit]
    rfl
  · rw [UPDATE_CTR_explicit]
    show ((((wordOfBytes b4 b5 b6 b7 <<< 1) &&& 0x00ffffff |||
        wordOfBytes b0 b1 b2 b3 >>> 31 |||
        wordOfBytes b4 b5 b6 b7 &&& 0xff000000) >>> 24) &&& 0xff) ::
        (bytesOfWord (wordOfBytes b8 b9 b10 b11) ++
          (bytesOfWord (wordOfBytes b12 b13 b14 b15) ++ [])) =
        [b7, b8, b9, b10, b11, b12, b13, b14, b15]
    rw [e7, e2, e3]
    rfl

/-- C9 witness: the frame property at a concrete 16-byte TK1 with a
nonzero domain byte. -/
theorem C9_update_ctr_frame_witness :
    (([1, 2, 3, 4, 5, 6, 7, 0x1a, 9, 10, 11, 12, 13, 14, 15, 16] :
          List ℕ).length = 16 ∧
        IsBytes [1, 2, 3, 4, 5, 6, 7, 0x1a, 9, 10, 11, 12, 13, 14, 15, 16]) ∧
      (UPDATE_CTR [1, 2, 3, 4, 5, 6, 7, 0x1a, 9, 10, 11, 12, 13, 14, 15,
            16]).length = 16 ∧
        (UPDATE_CTR [1, 2, 3, 4, 5, 6, 7, 0x1a, 9, 10, 11, 12, 13, 14, 15,
            16]).drop 7 =
          ([1, 2, 3, 4, 5, 6, 7, 0x1a, 9, 10, 11, 12, 13, 14, 15, 16] :
              List ℕ).drop 7 :=
  ⟨⟨by decide, by decide⟩,
    C9_update_ctr_frame
      [1, 2, 3, 4, 5, 6, 7, 0x1a, 9, 10, 11, 12, 13, 14, 15, 16]
      (by decide) (by decide)⟩

/-- C10 (code bug).  For a one-byte input over a destination whose word at
index len/4 = 0 previously held 0xffffffff, the packing of
`generate_shares_encrypt` / `generate_shares_decrypt` leaves that word
equal to 0xffffffff (the trailing byte is OR-ed into never-cleared
contents) instead of the claimed little-endian bytes with zero high bytes
(here 0); the word the code does zero-initialize is the one at the wrong
index len/4 + 1 = 1. -/
theorem C10_pack_uninitialized :
    generate_shares_encrypt_ms (fun _ => 0xffffffff) [0] 0 = 0xffffffff ∧
      generate_shares_encrypt_ms (fun _ => 0xffffffff) [0] 1 = 0 ∧
      generate_shares_decrypt_cs (fun _ => 0xffffffff) [0] 0 = 0xffffffff ∧
      generate_shares_decrypt_cs (fun _ => 0xffffffff) [0] 1 = 0 ∧
      ¬ generate_shares_encrypt_ms (fun _ => 0xffffffff) [0] 0 =
          wordOfBytes 0 0 0 0 := by
  decide

end Romulus
